import Mathlib

/-!
Verification of `smtp-split-mailer` (`app/main.py`): a shallow embedding of the
recipient parser, the per-job log buffer, the job registry, the archiver-path
resolution and the `_run_job` pipeline, together with proofs of the spec's
claims about them.

Strings are modelled as `List Char` wherever character-level reasoning is
needed (the recipient parser); messages and paths stay `String`.
-/

namespace SplitMailer

/-! ### Character classes used by `_normalize_emails_text` and `_EMAIL_RE` -/

/-- Whitespace class of Python's regex `\s` (ASCII part; the ideographic space
`　` is translated to `' '` by `_FULLWIDTH_MAP` before any regex runs). -/
def isWs (c : Char) : Bool :=
  c = ' ' ∨ c = '\t' ∨ c = '\n' ∨ c = '\r' ∨ c = '\x0b' ∨ c = '\x0c'

/-- Translation table `_FULLWIDTH_MAP` (main.py lines 145-157). -/
def fullwidthMap (c : Char) : Char :=
  if c = '，' then ',' else
  if c = '；' then ';' else
  if c = '。' then '.' else
  if c = '＠' then '@' else
  if c = '（' then '(' else
  if c = '）' then ')' else
  if c = '【' then '[' else
  if c = '】' then ']' else
  if c = '：' then ':' else
  if c = '、' then ',' else
  if c = '　' then ' ' else c

/-- Character class `[A-Za-z0-9._%+\-]` (local part of `_EMAIL_RE`). -/
def isLocalChar (c : Char) : Bool :=
  c.isAlpha ∨ c.isDigit ∨ c = '.' ∨ c = '_' ∨ c = '%' ∨ c = '+' ∨ c = '-'

/-- Character class `[A-Za-z0-9.\-]` (domain part of `_EMAIL_RE`). -/
def isDomainChar (c : Char) : Bool :=
  c.isAlpha ∨ c.isDigit ∨ c = '.' ∨ c = '-'

/-- Separator class `[;\s，；、]` of the second substitution in
`_normalize_emails_text` (line 168). -/
def isSep2 (c : Char) : Bool :=
  c = ';' ∨ isWs c ∨ c = '，' ∨ c = '；' ∨ c = '、'

/-- Characters stripped by `s.strip(" ,;")` (line 169). -/
def isStripped (c : Char) : Bool :=
  c = ' ' ∨ c = ',' ∨ c = ';'

/-! ### `_normalize_emails_text` -/

/-- State machine for `re.sub(r"\s*([@.])\s*", r"\1", s)` (line 167). A
whitespace run is deleted exactly when it is adjacent to an `@` or `.`; the
`@`/`.` itself is kept. `swallow` is true right after an `@`/`.` was emitted
(its trailing `\s*` is being consumed); `pend` buffers, reversed, a pending
whitespace run whose fate depends on the next non-whitespace character
(deleted before an `@`/`.`, kept verbatim otherwise, kept at end of input). -/
def sub1go (swallow : Bool) (pend : List Char) : List Char → List Char
  | [] => pend.reverse
  | c :: cs =>
    if isWs c then
      if swallow then sub1go true pend cs
      else sub1go false (c :: pend) cs
    else if c = '@' ∨ c = '.' then c :: sub1go true [] cs
    else pend.reverse ++ c :: sub1go false [] cs

/-- Embedding of `re.sub(r"\s*([@.])\s*", r"\1", s)` (line 167): every run of
whitespace adjacent to an `@` or `.` is deleted, the `@`/`.` itself is kept. -/
def sub1 (l : List Char) : List Char :=
  sub1go false [] l

/-- State machine for `re.sub(r"[;\s，；、]+", ",", s)` (line 168): each
maximal run of separators collapses to a single ASCII comma (note: `,` itself
is not in the class, so existing commas are untouched). `inRun` is true while
inside a separator run whose comma was already emitted. -/
def sub2go (inRun : Bool) : List Char → List Char
  | [] => []
  | c :: cs =>
    if isSep2 c then
      if inRun then sub2go true cs else ',' :: sub2go true cs
    else c :: sub2go false cs

/-- Embedding of `re.sub(r"[;\s，；、]+", ",", s)` (line 168). -/
def sub2 (l : List Char) : List Char :=
  sub2go false l

/-- Embedding of Python `str.strip(chars)`: drop the given class from both
ends. -/
def pyStrip (p : Char → Bool) (l : List Char) : List Char :=
  ((l.dropWhile p).reverse.dropWhile p).reverse

/-- Embedding of `_normalize_emails_text` (lines 163-170). -/
def normalizeEmailsText (s : List Char) : List Char :=
  if s = [] then []
  else pyStrip isStripped (sub2 (sub1 (s.map fullwidthMap)))

/-! ### `getaddresses` model and `_EMAIL_RE` -/

/-- Python `"".split(",")` semantics on character lists. -/
def splitComma : List Char → List (List Char)
  | [] => [[]]
  | c :: cs =>
    if c = ',' then [] :: splitComma cs
    else
      match splitComma cs with
      | [] => [[c]]
      | t :: ts => (c :: t) :: ts

/-- Model of the address component extracted by `email.utils.getaddresses`
from one comma-separated mailbox: the text between angle brackets when a
`Name <addr>` form is present, otherwise the whole chunk. -/
def extractAddr (chunk : List Char) : List Char :=
  match chunk.dropWhile (fun c => !(c = '<')) with
  | [] => chunk
  | _ :: rest => rest.takeWhile (fun c => !(c = '>'))

/-- Full match against `_EMAIL_RE`'s domain tail `[A-Za-z0-9.\-]+\.[A-Za-z]{2,}$`:
all characters are domain characters and the string ends in a dot followed by
the (maximal) trailing alphabetic run of length at least two, with a non-empty
prefix before that dot. -/
def matchDomain (cs : List Char) : Bool :=
  cs.all isDomainChar &&
    (let r := cs.reverse
     let t := r.takeWhile Char.isAlpha
     decide (2 ≤ t.length) &&
       (match r.drop t.length with
        | '.' :: d => !d.isEmpty
        | _ => false))

/-- Full match against `_EMAIL_RE = ^[A-Za-z0-9._%+\-]+@[A-Za-z0-9.\-]+\.[A-Za-z]{2,}$`
(line 159-161). Since neither character class contains `@`, the regex matches
exactly when the maximal leading local run is non-empty, is followed by `@`,
and the remainder matches the domain tail. -/
def matchEmail (cs : List Char) : Bool :=
  match cs.dropWhile isLocalChar with
  | '@' :: rest => !(cs.takeWhile isLocalChar).isEmpty && matchDomain rest
  | _ => false

/-! ### `parse_recipients` -/

/-- The classification loop of `parse_recipients` (lines 177-185): strip each
extracted address, skip empties, and route the rest into the `emails` and
`bad` accumulators in order. -/
def classify : List (List Char) → List (List Char) × List (List Char)
  | [] => ([], [])
  | a :: rest =>
    let a := pyStrip isWs a
    let (es, bs) := classify rest
    if a = [] then (es, bs)
    else if matchEmail a then (a :: es, bs) else (es, a :: bs)

/-- Lower-casing used by the dedup pass (`e.lower()`, line 190). -/
def lowerList (l : List Char) : List Char := l.map Char.toLower

/-- The case-insensitive first-seen dedup pass of `parse_recipients`
(lines 188-193), with the `seen` set as an explicit list of lowercased keys. -/
def dedupCI (seen : List (List Char)) : List (List Char) → List (List Char)
  | [] => []
  | e :: rest =>
    if lowerList e ∈ seen then dedupCI seen rest
    else e :: dedupCI (lowerList e :: seen) rest

/-- Python `", ".join`: used both by the error message `", ".join(bad)`
(line 187) and to re-serialise a recipient list as comma-separated text. -/
def joinCS : List (List Char) → List Char
  | [] => []
  | [x] => x
  | x :: y :: rest => x ++ ',' :: ' ' :: joinCS (y :: rest)

/-- The addresses `parse_recipients` extracts from its input and submits to
validation: one per comma chunk of the normalized text, stripped, with empties
skipped (lines 176-181). -/
def extractedAddrs (s : List Char) : List (List Char) :=
  (((splitComma (normalizeEmailsText s)).map extractAddr).map
    (pyStrip isWs)).filter (fun a => !a.isEmpty)

/-- Embedding of `parse_recipients` (lines 172-194). On any invalid extracted
address it fails with the message `无效邮箱：` followed by the comma-joined bad
addresses; otherwise it returns the case-insensitively deduplicated list. -/
def parseRecipients (s : List Char) : Except (List Char) (List (List Char)) :=
  let n := normalizeEmailsText s
  if n = [] then .ok []
  else
    let (emails, bad) := classify ((splitComma n).map extractAddr)
    if bad = [] then .ok (dedupCI [] emails)
    else .error (("无效邮箱：".data) ++ joinCS bad)

/-! ### Job status, per-job log buffer, registry -/

/-- The `JobStatus` enum (lines 261-265). -/
inductive JobStatus where
  | PENDING
  | RUNNING
  | DONE
  | ERROR
  deriving DecidableEq, Repr

/-- The trim-on-append body of `Job.log` (lines 274-279): append the stamped
entry, and when the buffer exceeds 2000 entries keep only the last 1000. -/
def jobLogAppend (logs : List String) (entry : String) : List String :=
  let l := logs ++ [entry]
  if 2000 < l.length then l.drop (l.length - 1000) else l

/-- The timestamped line format of `Job.log` (line 277). -/
def stampLine (stamp msg : String) : String :=
  "[" ++ stamp ++ "] " ++ msg

/-- Embedding of `Job.log`'s effect on `self.logs`: append the stamped message
with the trim policy. -/
def jobLogPush (logs : List String) (stamp msg : String) : List String :=
  jobLogAppend logs (stampLine stamp msg)

/-- The log view returned by `GET /api/logs` (line 408): `job.logs[-1000:]`. -/
def apiLogs (logs : List String) : List String :=
  logs.drop (logs.length - 1000)

/-- Python `dict` assignment `JOBS[job_id] = j` on an association-list model of
the registry: replace the value when the key is present, append otherwise. -/
def dictInsert (k : String) (v : JobStatus) :
    List (String × JobStatus) → List (String × JobStatus)
  | [] => [(k, v)]
  | (k1, v1) :: rest =>
    if k1 = k then (k, v) :: rest else (k1, v1) :: dictInsert k v rest

/-- The identity allocated by `create_job` (line 289): the decimal string of
the current epoch-millisecond count `int(time.time() * 1000)`. -/
def jobIdOf (nowMs : Nat) : String := toString nowMs

/-- Embedding of `create_job` (lines 288-293), with the millisecond clock as an
explicit input: build a fresh `Pending` job and insert it into the registry,
returning the id and the updated registry. -/
def createJob (nowMs : Nat) (reg : List (String × JobStatus)) :
    String × List (String × JobStatus) :=
  (jobIdOf nowMs, dictInsert (jobIdOf nowMs) JobStatus.PENDING reg)

/-! ### Archiver path resolution (`SEVENZ_PATH` / `ensure_7z_ready`) -/

/-- Embedding of the startup hook `_prepare_sevenz_on_startup` (lines 552-560):
on success the resolved path is stored in the global `SEVENZ_PATH`, on failure
the exception is swallowed and the global stays `none`. -/
def startupInit (ensureResult : Except String String) : Option String :=
  match ensureResult with
  | .ok p => some p
  | .error _ => none

/-- Embedding of line 455, `sevenz = SEVENZ_PATH or ensure_7z_ready()`, as a
step on the process-wide state: returns the new global value, whether
`ensure_7z_ready` was called, and the resolved path (or its error). The code
declares `global SEVENZ_PATH` but never assigns it, so the global is returned
unchanged. -/
def resolveSevenzStep (globalPath : Option String)
    (ensureResult : Except String String) :
    Option String × Bool × Except String String :=
  match globalPath with
  | some p => (some p, false, .ok p)
  | none => (none, true, ensureResult)

/-! ### The `_run_job` pipeline as an event trace -/

/-- Observable actions of one job run, in program order. `jobLog` is an append
to the job's own log (`job.log`), `procLog` a line written only to the
process-wide operational logger. -/
inductive Event where
  | setStatus (s : JobStatus)
  | jobLog (msg : String)
  | procLog (msg : String)
  | mkdirOutputDir
  | deleteFile (name : String)
  | ensureSevenz
  | invokeArchiver (sevenz : String) (vsize : Int) (archive : String)
  | connectSend
  | send (rcpts : List (List Char))
  | quitSession
  deriving DecidableEq, Repr

/-- One `job.log(msg)` call: the message is appended to the job log and
mirrored to the operational logger (lines 274-283). -/
def jobLogEvs (msg : String) : List Event :=
  [Event.jobLog msg, Event.procLog msg]

instance {α β : Type} [DecidableEq α] [DecidableEq β] :
    DecidableEq (Except α β) := fun a b =>
  match a, b with
  | .ok x, .ok y =>
    if h : x = y then .isTrue (by rw [h]) else .isFalse (by simp [h])
  | .error x, .error y =>
    if h : x = y then .isTrue (by rw [h]) else .isFalse (by simp [h])
  | .ok _, .error _ => .isFalse (by simp)
  | .error _, .ok _ => .isFalse (by simp)

/-- Outcomes of the external world during one run: which fallible steps
succeed, what the stale/produced volume sets are, what the archiver prints. -/
structure Env where
  smtpHostCfg : String
  preflightOk : Bool
  preflightErr : String
  sessionDirExists : Bool
  sevenzGlobal : Option String
  ensureResult : Except String String
  mainArchiveExists : Bool
  oldParts : List String
  compressExit : Int
  compressLines : List String
  producedParts : List String
  sendConnectOk : Bool
  sendConnectErr : String
  sendFailAt : Option Nat
  sendFailErr : String
  deriving Repr, DecidableEq

/-- The fields of `StartPayload` that the pipeline reads (lines 300-307). -/
structure StartPayload where
  outputBasename : String
  volumeSizeMb : Int
  sendIntervalSec : Int
  recipients : List Char
  cc : List Char
  smtpHost : Option String
  deriving Repr, DecidableEq

/-- Python `str.strip()` (no argument): strip whitespace from both ends. -/
def pyStripStr (s : String) : String :=
  String.mk (pyStrip isWs s.data)

/-- The effective SMTP host (line 425): the payload override when truthy, the
configured host otherwise, stripped. -/
def effectiveHost (env : Env) (p : StartPayload) : String :=
  pyStripStr
    (match p.smtpHost with
     | some h => if h = "" then env.smtpHostCfg else h
     | none => env.smtpHostCfg)

/-- The effective output basename (line 458):
`(payload.output_basename or "mydata").strip() or "mydata"`. -/
def effectiveBase (p : StartPayload) : String :=
  let b0 := if p.outputBasename = "" then "mydata" else p.outputBasename
  if pyStripStr b0 = "" then "mydata" else pyStripStr b0

/-- The send loop of `_run_job` (lines 511-531): for each volume, either
`server.send_message` raises (aborting the loop with no further events) or a
`send` event with the full `to + cc` envelope is recorded, followed by the
job-log line and the optional throttling wait. -/
def sendLoop (env : Env) (rcpts : List (List Char)) (interval : Int)
    (total : Nat) (idx : Nat) (parts : List String) :
    List Event × Option String :=
  match parts with
  | [] => ([], none)
  | _part :: rest =>
    if env.sendFailAt = some idx then ([], some env.sendFailErr)
    else
      let evs :=
        Event.send rcpts ::
          jobLogEvs ("已发送第 " ++ toString idx ++ "/" ++ toString total ++ " 封") ++
          (if idx < total ∧ 0 < interval then
             jobLogEvs ("等待 " ++ toString interval ++ "s 继续")
           else [])
      let r := sendLoop env rcpts interval total (idx + 1) rest
      (evs ++ r.1, r.2)

/-- The compression phase of `_run_job` (lines 452-491): resolve the archiver
(line 455), purge stale volumes (lines 461-473), invoke the compressor
streaming its output (lines 476-484), fail on a non-zero exit or an empty
volume set (lines 485-490), and log the volume count (line 491). -/
def archivePhase (env : Env) (p : StartPayload) :
    List Event × Option String :=
  let acc0 := jobLogEvs "准备压缩工具..."
  match (resolveSevenzStep env.sevenzGlobal env.ensureResult).2.2,
        (resolveSevenzStep env.sevenzGlobal env.ensureResult).2.1 with
  | .error msg, called =>
    (acc0 ++ (if called then [Event.ensureSevenz] else []), some msg)
  | .ok sevenz, called =>
    let acc1 := acc0 ++ (if called then [Event.ensureSevenz] else []) ++
      [Event.procLog ("7z 可执行: " ++ sevenz)]
    let base := effectiveBase p
    let cleanup :=
      if env.mainArchiveExists ∨ ¬env.oldParts.isEmpty then
        jobLogEvs "清理上次生成的分卷" ++
          env.oldParts.map Event.deleteFile ++
          (if env.mainArchiveExists then [Event.deleteFile (base ++ ".7z")]
           else [])
      else []
    let vsize := max 1 p.volumeSizeMb
    let acc2 := acc1 ++ cleanup ++ jobLogEvs "开始压缩源文件夹" ++
      [Event.invokeArchiver sevenz vsize (base ++ ".7z")] ++
      env.compressLines.map Event.procLog
    if env.compressExit ≠ 0 then
      (acc2, some ("压缩失败，退出码 " ++ toString env.compressExit))
    else if env.producedParts.isEmpty then
      (acc2, some "未生成任何分卷文件")
    else
      (acc2 ++ jobLogEvs ("压缩完成，共 " ++ toString env.producedParts.length ++
        " 份"), none)

/-- The send phase of `_run_job` (lines 496-534): open the real send session
(line 496), parse To and Cc (lines 498-499, either may raise), fail on an
empty To list (lines 500-501), run the send loop, and quit the session only
after every send succeeded (line 533). -/
def sendPhase (env : Env) (p : StartPayload) (total : Nat) :
    List Event × Option String :=
  if ¬env.sendConnectOk then ([], some env.sendConnectErr)
  else
    let acc := [Event.connectSend]
    match parseRecipients p.recipients with
    | .error msg => (acc, some (String.mk msg))
    | .ok toList =>
      match parseRecipients p.cc with
      | .error msg => (acc, some (String.mk msg))
      | .ok ccList =>
        if toList.isEmpty then (acc, some "收件人为空")
        else
          let r := sendLoop env (toList ++ ccList) (max 0 p.sendIntervalSec)
            total 1 env.producedParts
          match r.2 with
          | some msg => (acc ++ r.1, some msg)
          | none =>
            (acc ++ r.1 ++ [Event.quitSession] ++
               jobLogEvs "全部发送完成", none)

/-- Compression and send phases of `_run_job` (lines 452-534), entered after
the pre-flight and upload-directory checks passed. -/
def compressAndSend (env : Env) (p : StartPayload) :
    List Event × Option String :=
  let a := archivePhase env p
  match a.2 with
  | some msg => (a.1, some msg)
  | none =>
    let s := sendPhase env p env.producedParts.length
    (a.1 ++ jobLogEvs "开始发送邮件" ++ s.1, s.2)

/-- The body of the `try:` block of `_run_job` (lines 423-535): SMTP parameter
resolution, pre-flight, upload-directory check, then `compressAndSend`.
Returns the events of the run together with `some errorMessage` when an
exception was raised. -/
def pipelineBody (env : Env) (p : StartPayload) :
    List Event × Option String :=
  if effectiveHost env p = "" then
    ([], some "未配置 SMTP_HOST（请在前端或环境变量中提供）")
  else
    let e1 := jobLogEvs "进行 SMTP 预检（联通性与登录）..."
    if ¬env.preflightOk then
      (e1, some ("SMTP 预检失败：" ++ env.preflightErr))
    else
      let e2 := e1 ++ jobLogEvs "SMTP 预检通过"
      if ¬env.sessionDirExists then
        (e2, some "未找到上传目录，请先上传文件夹")
      else
        let e3 := e2 ++ [Event.mkdirOutputDir]
        let r := compressAndSend env p
        (e3 ++ r.1, r.2)

/-- Embedding of `_run_job` (lines 421-539): set `RUNNING`, run the pipeline
body, and on success set `DONE`, on any exception log `出错：...` at error
level and set `ERROR`. -/
def runJob (env : Env) (p : StartPayload) : List Event :=
  Event.setStatus JobStatus.RUNNING ::
    (match pipelineBody env p with
     | (evs, none) => evs ++ [Event.setStatus JobStatus.DONE]
     | (evs, some msg) =>
       evs ++ jobLogEvs ("出错：" ++ msg) ++ [Event.setStatus JobStatus.ERROR])

/-- The full observable life of one job as driven by `POST /api/start`
(lines 541-546): `Job.__init__` sets `PENDING`, then the background thread
runs `_run_job`. -/
def createAndRunEvents (env : Env) (p : StartPayload) : List Event :=
  Event.setStatus JobStatus.PENDING :: runJob env p

/-- Projection selecting `setStatus` events. -/
def toStatus (e : Event) : Option JobStatus :=
  match e with
  | .setStatus s => some s
  | _ => none

/-- Projection selecting `jobLog` events. -/
def toJobLog (e : Event) : Option String :=
  match e with
  | .jobLog m => some m
  | _ => none

/-- Projection selecting `procLog` events. -/
def toProcLog (e : Event) : Option String :=
  match e with
  | .procLog m => some m
  | _ => none

/-- The sequence of values assigned to `job.status` during a trace. -/
def statusWrites (trace : List Event) : List JobStatus :=
  trace.filterMap toStatus

/-- The messages appended to the job's own log during a trace (the lines that
`GET /api/logs` can ever show for the job). -/
def jobLogMsgs (trace : List Event) : List String :=
  trace.filterMap toJobLog

/-- The messages written to the process-wide operational logger. -/
def procLogMsgs (trace : List Event) : List String :=
  trace.filterMap toProcLog

/-- Filesystem-touching events: creating the output directory, deleting stale
volumes, invoking the archiver child process. -/
def touchesFs (e : Event) : Bool :=
  match e with
  | .mkdirOutputDir => true
  | .deleteFile _ => true
  | .invokeArchiver _ _ _ => true
  | _ => false

/-! ### Trace helper lemmas -/

theorem statusWrites_append (a b : List Event) :
    statusWrites (a ++ b) = statusWrites a ++ statusWrites b :=
  List.filterMap_append ..

theorem mem_jobLogEvs {e : Event} {msg : String} (h : e ∈ jobLogEvs msg) :
    e = Event.jobLog msg ∨ e = Event.procLog msg := by
  simpa [jobLogEvs] using h

/-- Every event emitted by the send loop is a send with the fixed envelope, a
job-log line, or an operational-log line. -/
theorem sendLoop_events (env : Env) (rcpts : List (List Char)) (interval : Int)
    (total : Nat) :
    ∀ (parts : List String) (idx : Nat),
      ∀ e ∈ (sendLoop env rcpts interval total idx parts).1,
        e = Event.send rcpts ∨ (∃ m, e = Event.jobLog m) ∨
          ∃ m, e = Event.procLog m := by
  intro parts
  induction parts with
  | nil => intro idx e he; simp [sendLoop] at he
  | cons hd tl ih =>
    intro idx e he
    simp only [sendLoop] at he
    split at he
    · simp at he
    · simp only [List.cons_append, List.mem_cons, List.mem_append] at he
      rcases he with rfl | he
      · exact Or.inl rfl
      rcases he with he | he
      · rcases he with h1 | h1
        · rcases mem_jobLogEvs h1 with rfl | rfl
          · exact Or.inr (Or.inl ⟨_, rfl⟩)
          · exact Or.inr (Or.inr ⟨_, rfl⟩)
        · split at h1
          · rcases mem_jobLogEvs h1 with rfl | rfl
            · exact Or.inr (Or.inl ⟨_, rfl⟩)
            · exact Or.inr (Or.inr ⟨_, rfl⟩)
          · simp at h1
      · exact ih (idx + 1) e he

/-- A pointwise Boolean invariant holds of every event emitted by the send
loop as soon as it holds of sends with the fixed envelope and of log lines. -/
theorem sendLoop_all (env : Env) (rcpts : List (List Char)) (iv : Int)
    (t : Nat) (f : Event → Bool) (h1 : f (Event.send rcpts) = true)
    (h2 : ∀ m, f (Event.jobLog m) = true) (h3 : ∀ m, f (Event.procLog m) = true) :
    ∀ (parts : List String) (i : Nat),
      (sendLoop env rcpts iv t i parts).1.all f = true := by
  intro parts
  induction parts with
  | nil => intro i; simp [sendLoop]
  | cons hd tl ih =>
    intro i
    simp only [sendLoop]
    split
    · simp
    · simp only [List.all_append, List.all_cons, jobLogEvs, h1, h2, h3,
        Bool.and_eq_true, List.all_nil]
      refine ⟨⟨?_, ?_⟩, ih (i + 1)⟩
      · simp
      · split <;> simp [h2, h3]

/-- A pointwise Boolean invariant holds of every event emitted by the
compression phase as soon as it holds of log lines, the lazy archiver
resolution, file deletions and the archiver invocation. -/
theorem archivePhase_all (env : Env) (p : StartPayload) (f : Event → Bool)
    (h1 : ∀ m, f (Event.jobLog m) = true)
    (h2 : ∀ m, f (Event.procLog m) = true)
    (h3 : f Event.ensureSevenz = true)
    (h4 : ∀ n, f (Event.deleteFile n) = true)
    (h5 : ∀ a b c, f (Event.invokeArchiver a b c) = true) :
    (archivePhase env p).1.all f = true := by
  simp only [archivePhase]
  split <;>
    (repeat' split) <;>
      simp [List.all_append, jobLogEvs, h1, h2, h3, h4, h5, List.all_eq_true]

/-- A pointwise Boolean invariant holds of every event emitted by the send
phase as soon as it holds of the session open/quit, sends and log lines. -/
theorem sendPhase_all (env : Env) (p : StartPayload) (total : Nat)
    (f : Event → Bool)
    (h1 : ∀ m, f (Event.jobLog m) = true)
    (h2 : ∀ m, f (Event.procLog m) = true)
    (h3 : f Event.connectSend = true)
    (h4 : ∀ rs, f (Event.send rs) = true)
    (h5 : f Event.quitSession = true) :
    (sendPhase env p total).1.all f = true := by
  simp only [sendPhase]
  repeat' split
  all_goals
    simp [List.all_append, jobLogEvs, h1, h2, h3, h4, h5,
      sendLoop_all env _ _ _ f (h4 _) h1 h2]

/-- A pointwise Boolean invariant holds of every event of the whole
`try:`-block body as soon as it holds of every non-status event shape. -/
theorem pipelineBody_all (env : Env) (p : StartPayload) (f : Event → Bool)
    (h1 : ∀ m, f (Event.jobLog m) = true)
    (h2 : ∀ m, f (Event.procLog m) = true)
    (h3 : f Event.ensureSevenz = true)
    (h4 : ∀ n, f (Event.deleteFile n) = true)
    (h5 : ∀ a b c, f (Event.invokeArchiver a b c) = true)
    (h6 : f Event.connectSend = true)
    (h7 : ∀ rs, f (Event.send rs) = true)
    (h8 : f Event.quitSession = true)
    (h9 : f Event.mkdirOutputDir = true) :
    (pipelineBody env p).1.all f = true := by
  have hc : (compressAndSend env p).1.all f = true := by
    simp only [compressAndSend]
    split
    · exact archivePhase_all env p f h1 h2 h3 h4 h5
    · simp [List.all_append, jobLogEvs, h1, h2,
        archivePhase_all env p f h1 h2 h3 h4 h5,
        sendPhase_all env p _ f h1 h2 h6 h7 h8]
  simp only [pipelineBody]
  repeat' split
  all_goals simp [List.all_append, jobLogEvs, h1, h2, h9, hc]

/-- `job.status` is never assigned inside the `try:` body: all status writes
of `_run_job` happen at its entry and in its terminal handlers. -/
theorem statusWrites_pipelineBody (env : Env) (p : StartPayload) :
    statusWrites (pipelineBody env p).1 = [] := by
  have h := pipelineBody_all env p (fun e => (toStatus e).isNone)
    (fun _ => rfl) (fun _ => rfl) rfl (fun _ => rfl) (fun _ _ _ => rfl)
    rfl (fun _ => rfl) rfl rfl
  rw [List.all_eq_true] at h
  refine List.filterMap_eq_nil.mpr fun e he => ?_
  have := h e he
  simpa [Option.isNone_iff_eq_none] using this

/-! ### C1: job status lifecycle -/

/-- C1. For every job, the observable status sequence is exactly
`Pending, Running, Done` or `Pending, Running, Error`: the job is created in
`Pending`, set to `Running` exactly once when the pipeline starts, then set to
exactly one terminal status, with no other transition ever written. -/
theorem c1_status_lifecycle (env : Env) (p : StartPayload) :
    statusWrites (createAndRunEvents env p) =
      [JobStatus.PENDING, JobStatus.RUNNING, JobStatus.DONE] ∨
    statusWrites (createAndRunEvents env p) =
      [JobStatus.PENDING, JobStatus.RUNNING, JobStatus.ERROR] := by
  have hbody : statusWrites (pipelineBody env p).1 = [] :=
    statusWrites_pipelineBody env p
  rcases hpb : pipelineBody env p with ⟨evs, opt⟩
  rw [hpb] at hbody
  cases opt with
  | none =>
    left
    simp [createAndRunEvents, runJob, hpb, statusWrites, toStatus,
      List.filterMap_append, jobLogEvs, statusWrites] at hbody ⊢
    simpa [statusWrites] using hbody
  | some msg =>
    right
    simp [createAndRunEvents, runJob, hpb, statusWrites, toStatus,
      List.filterMap_append, jobLogEvs, statusWrites] at hbody ⊢
    simpa [statusWrites] using hbody

/-! ### C3: failed pre-flight aborts before any filesystem or archiver work -/

/-- C3. When the SMTP pre-flight fails, the run makes no filesystem-touching
step at all (no output directory creation, no stale-volume deletion, no
archiver invocation, hence no volumes) and the job ends in `Error`. -/
theorem c3_preflight_fail_clean (env : Env) (p : StartPayload)
    (hhost : effectiveHost env p ≠ "")
    (hpf : env.preflightOk = false) :
    (runJob env p).all (fun e => !touchesFs e) = true ∧
    statusWrites (runJob env p) = [JobStatus.RUNNING, JobStatus.ERROR] := by
  have hpb : pipelineBody env p =
      (jobLogEvs "进行 SMTP 预检（联通性与登录）...",
        some ("SMTP 预检失败：" ++ env.preflightErr)) := by
    simp [pipelineBody, hhost, hpf]
  constructor
  · simp [runJob, hpb, jobLogEvs, touchesFs]
  · simp [runJob, hpb, statusWrites, jobLogEvs, toStatus]

/-- Concrete instantiation of `c3_preflight_fail_clean`. -/
theorem c3_preflight_fail_clean_witness :
    ((runJob
        { smtpHostCfg := "smtp.example", preflightOk := false
          preflightErr := "connection refused", sessionDirExists := true
          sevenzGlobal := some "7zz", ensureResult := .ok "7zz"
          mainArchiveExists := true, oldParts := ["m.7z.001"]
          compressExit := 0, compressLines := ["out"]
          producedParts := ["m.7z.001"], sendConnectOk := true
          sendConnectErr := "", sendFailAt := none, sendFailErr := "" }
        { outputBasename := "m", volumeSizeMb := 20, sendIntervalSec := 5
          recipients := "a@b.com".data, cc := [], smtpHost := some "smtp.example" }).all
      (fun e => !touchesFs e) = true) ∧
    statusWrites (runJob
        { smtpHostCfg := "smtp.example", preflightOk := false
          preflightErr := "connection refused", sessionDirExists := true
          sevenzGlobal := some "7zz", ensureResult := .ok "7zz"
          mainArchiveExists := true, oldParts := ["m.7z.001"]
          compressExit := 0, compressLines := ["out"]
          producedParts := ["m.7z.001"], sendConnectOk := true
          sendConnectErr := "", sendFailAt := none, sendFailErr := "" }
        { outputBasename := "m", volumeSizeMb := 20, sendIntervalSec := 5
          recipients := "a@b.com".data, cc := [], smtpHost := some "smtp.example" }) =
      [JobStatus.RUNNING, JobStatus.ERROR] :=
  c3_preflight_fail_clean _ _ (by decide) (by rfl)

/-! ### C7: bounded job log and bounded status retrieval -/

/-- C7. The per-job log is bounded: an append that makes the buffer exceed
2000 entries trims it to exactly the most recent 1000 entries (a suffix, so
order is kept); after any append the buffer holds at most 2000 entries; and
the `/api/logs` view returns at most the most recent 1000 lines, again as a
suffix of the log. -/
theorem c7_log_bound (logs : List String) (entry : String) :
    (jobLogAppend logs entry).length ≤ 2000 ∧
    jobLogAppend logs entry <:+ logs ++ [entry] ∧
    (2000 < (logs ++ [entry]).length →
      jobLogAppend logs entry =
        (logs ++ [entry]).drop ((logs ++ [entry]).length - 1000) ∧
      (jobLogAppend logs entry).length = 1000) ∧
    (apiLogs logs).length ≤ 1000 ∧ apiLogs logs <:+ logs := by
  have hapi1 : (apiLogs logs).length ≤ 1000 := by
    simp only [apiLogs, List.length_drop]
    omega
  have hapi2 : apiLogs logs <:+ logs := List.drop_suffix _ _
  by_cases h : 2000 < (logs ++ [entry]).length
  · have hA : jobLogAppend logs entry =
        (logs ++ [entry]).drop ((logs ++ [entry]).length - 1000) := by
      simp only [jobLogAppend, if_pos h]
    have hlen : (jobLogAppend logs entry).length = 1000 := by
      rw [hA, List.length_drop]
      omega
    exact ⟨by omega, hA ▸ List.drop_suffix _ _, fun _ => ⟨hA, hlen⟩,
      hapi1, hapi2⟩
  · have hA : jobLogAppend logs entry = logs ++ [entry] := by
      simp only [jobLogAppend, if_neg h]
    refine ⟨?_, ?_, fun hc => absurd hc h, hapi1, hapi2⟩
    · rw [hA]
      omega
    · rw [hA]

/-- Concrete instantiation of `c7_log_bound` at a 2000-entry buffer, where the
append triggers the trim. -/
theorem c7_log_bound_witness :
    (jobLogAppend (List.replicate 2000 "x") "y").length ≤ 2000 ∧
    jobLogAppend (List.replicate 2000 "x") "y" <:+
      List.replicate 2000 "x" ++ ["y"] ∧
    (2000 < (List.replicate 2000 "x" ++ ["y"]).length →
      jobLogAppend (List.replicate 2000 "x") "y" =
        (List.replicate 2000 "x" ++ ["y"]).drop
          ((List.replicate 2000 "x" ++ ["y"]).length - 1000) ∧
      (jobLogAppend (List.replicate 2000 "x") "y").length = 1000) ∧
    (apiLogs (List.replicate 2000 "x")).length ≤ 1000 ∧
    apiLogs (List.replicate 2000 "x") <:+ List.replicate 2000 "x" :=
  c7_log_bound (List.replicate 2000 "x") "y"

/-! ### C4: job identity allocation -/

/-- Functional form of `Nat.toDigits 10`: decimal digits, most significant
first. -/
def decRepr (n : Nat) : List Char :=
  if n < 10 then [Nat.digitChar n]
  else decRepr (n / 10) ++ [Nat.digitChar (n % 10)]
decreasing_by
  exact Nat.div_lt_self (by omega) (by omega)

theorem decRepr_lt {n : Nat} (h : n < 10) : decRepr n = [Nat.digitChar n] := by
  rw [decRepr, if_pos h]

theorem decRepr_ge {n : Nat} (h : ¬n < 10) :
    decRepr n = decRepr (n / 10) ++ [Nat.digitChar (n % 10)] := by
  conv_lhs => rw [decRepr]
  rw [if_neg h]

theorem toDigitsCore_eq_decRepr :
    ∀ (fuel n : Nat) (acc : List Char), n < fuel →
      Nat.toDigitsCore 10 fuel n acc = decRepr n ++ acc := by
  intro fuel
  induction fuel with
  | zero => intro n acc h; omega
  | succ f ih =>
    intro n acc h
    simp only [Nat.toDigitsCore]
    by_cases h10 : n / 10 = 0
    · have hn : n < 10 := by omega
      rw [if_pos h10, decRepr_lt hn, Nat.mod_eq_of_lt hn]
      rfl
    · have hn : ¬n < 10 := by omega
      rw [if_neg h10, ih (n / 10) _ (by omega), decRepr_ge hn]
      simp

theorem natToString_eq_decRepr (n : Nat) :
    toString n = String.mk (decRepr n) := by
  show Nat.repr n = _
  rw [Nat.repr, Nat.toDigits, toDigitsCore_eq_decRepr (n + 1) n [] (by omega)]
  simp [List.asString]

theorem digitChar_inj {a b : Nat} (ha : a < 10) (hb : b < 10)
    (h : Nat.digitChar a = Nat.digitChar b) : a = b := by
  interval_cases a <;> interval_cases b <;> simp_all [Nat.digitChar]

theorem decRepr_ne_nil (n : Nat) : decRepr n ≠ [] := by
  rw [decRepr]
  split <;> simp

theorem decRepr_inj : ∀ m n : Nat, decRepr m = decRepr n → m = n := by
  intro m
  induction m using Nat.strong_induction_on with
  | _ m ih =>
    intro n h
    by_cases hm : m < 10 <;> by_cases hn : n < 10
    · rw [decRepr_lt hm, decRepr_lt hn] at h
      exact digitChar_inj hm hn (by simpa using h)
    · rw [decRepr_lt hm, decRepr_ge hn] at h
      have hlen := congrArg List.length h
      simp only [List.length_singleton, List.length_append] at hlen
      have h1 : 0 < (decRepr (n / 10)).length :=
        List.length_pos.mpr (decRepr_ne_nil _)
      omega
    · rw [decRepr_ge hm, decRepr_lt hn] at h
      have hlen := congrArg List.length h
      simp only [List.length_singleton, List.length_append] at hlen
      have h1 : 0 < (decRepr (m / 10)).length :=
        List.length_pos.mpr (decRepr_ne_nil _)
      omega
    · rw [decRepr_ge hm, decRepr_ge hn] at h
      have h2 := congrArg List.reverse h
      simp only [List.reverse_append, List.reverse_singleton,
        List.singleton_append, List.cons.injEq] at h2
      obtain ⟨hd, htl⟩ := h2
      have hdiv : m / 10 = n / 10 := by
        apply ih (m / 10) (Nat.div_lt_self (by omega) (by omega))
        have := congrArg List.reverse htl
        simpa using this
      have hmod : m % 10 = n % 10 :=
        digitChar_inj (Nat.mod_lt _ (by omega)) (Nat.mod_lt _ (by omega)) hd
      omega

theorem jobIdOf_inj {t1 t2 : Nat} (h : jobIdOf t1 = jobIdOf t2) : t1 = t2 := by
  rw [jobIdOf, jobIdOf, natToString_eq_decRepr, natToString_eq_decRepr] at h
  exact decRepr_inj _ _ (by injection h)

/-- C4 (counterexample). Two `create_job` calls that fall in the same
millisecond return the same identity, and the second registry insert
overwrites the first entry: afterwards the registry holds a single job, not
two. This refutes process-lifetime uniqueness of allocated identities. -/
theorem c4_same_millisecond_collision :
    (createJob 1700000000000 []).1 =
      (createJob 1700000000000 (createJob 1700000000000 []).2).1 ∧
    (createJob 1700000000000 (createJob 1700000000000 []).2).2.length = 1 := by
  constructor
  · rfl
  · rfl

/-- C4 (amended). Identity allocation is unique only across distinct
millisecond timestamps: `create_job` calls at different milliseconds return
different identities, and inserting an identity that is not yet a registry key
preserves every existing entry and grows the registry by one (no overwrite).
Within one millisecond the identities collide as shown by the
counterexample. -/
theorem c4_distinct_ms_unique (t1 t2 : Nat) (reg : List (String × JobStatus))
    (hne : t1 ≠ t2) (hfresh : jobIdOf t1 ∉ reg.map Prod.fst) :
    (createJob t1 reg).1 ≠ (createJob t2 reg).1 ∧
    (createJob t1 reg).2.length = reg.length + 1 ∧
    ∀ kv ∈ reg, kv ∈ (createJob t1 reg).2 := by
  refine ⟨fun h => hne (jobIdOf_inj h), ?_, ?_⟩
  · clear hne
    induction reg with
    | nil => rfl
    | cons hd tl ih =>
      simp only [List.map_cons, List.mem_cons] at hfresh
      push_neg at hfresh
      simp only [createJob, dictInsert, List.length_cons]
      rw [if_neg (by exact fun hh => hfresh.1 hh.symm)]
      simpa [createJob] using ih hfresh.2
  · clear hne
    induction reg with
    | nil => simp
    | cons hd tl ih =>
      simp only [List.map_cons, List.mem_cons] at hfresh
      push_neg at hfresh
      intro kv hkv
      simp only [createJob, dictInsert]
      rw [if_neg (by exact fun hh => hfresh.1 hh.symm)]
      rcases List.mem_cons.mp hkv with rfl | h2
      · exact List.mem_cons_self _ _
      · exact List.mem_cons_of_mem _ (ih hfresh.2 kv h2)

/-- Concrete instantiation of `c4_distinct_ms_unique` at two adjacent
milliseconds. -/
theorem c4_distinct_ms_unique_witness :
    (createJob 1700000000000 [("1700000000001", JobStatus.PENDING)]).1 ≠
      (createJob 1700000000001 [("1700000000001", JobStatus.PENDING)]).1 ∧
    (createJob 1700000000000 [("1700000000001", JobStatus.PENDING)]).2.length =
      [("1700000000001", JobStatus.PENDING)].length + 1 ∧
    ∀ kv ∈ [("1700000000001", JobStatus.PENDING)],
      kv ∈ (createJob 1700000000000 [("1700000000001", JobStatus.PENDING)]).2 :=
  c4_distinct_ms_unique 1700000000000 1700000000001 _ (by omega) (by decide)

/-! ### C6: archiver path caching -/

/-- C6. When startup resolution failed (`SEVENZ_PATH` is `None`), a job whose
lazy `ensure_7z_ready()` call succeeds does NOT store the resolved path in the
process-wide state: the global stays `None`, and the next job calls
`ensure_7z_ready` again instead of reusing a cached path. Evaluates the code
at the failing input of the claim. -/
theorem c6_lazy_resolution_not_cached :
    startupInit (.error "no bundled 7z at boot") = none ∧
    (resolveSevenzStep (startupInit (.error "no bundled 7z at boot"))
        (.ok "/data/7z/7zz")).2.1 = true ∧
    (resolveSevenzStep (startupInit (.error "no bundled 7z at boot"))
        (.ok "/data/7z/7zz")).1 = none ∧
    (resolveSevenzStep
        (resolveSevenzStep (startupInit (.error "no bundled 7z at boot"))
          (.ok "/data/7z/7zz")).1
        (.ok "/data/7z/7zz")).2.1 = true := by
  exact ⟨rfl, rfl, rfl, rfl⟩

/-! ### C2: invalid recipients fail atomically -/

/-- The classification loop routes each stripped, non-empty extracted address
into the valid or invalid accumulator according to `_EMAIL_RE`, preserving
order: it equals a pair of filters. -/
theorem classify_eq : ∀ cs : List (List Char),
    classify cs =
      ((cs.map (pyStrip isWs)).filter (fun a => !a.isEmpty && matchEmail a),
       (cs.map (pyStrip isWs)).filter (fun a => !a.isEmpty && !matchEmail a)) := by
  intro cs
  induction cs with
  | nil => rfl
  | cons a rest ih =>
    simp only [classify, ih, List.map_cons, List.filter_cons]
    by_cases he : pyStrip isWs a = []
    · simp [he]
    · have hne : (pyStrip isWs a).isEmpty = false := by
        simpa [List.isEmpty_iff] using he
      by_cases hm : matchEmail (pyStrip isWs a)
      · simp [he, hne, hm]
      · simp [he, hne, hm]

theorem extractedAddrs_filter_bad (s : List Char) :
    (extractedAddrs s).filter (fun a => !matchEmail a) =
      (((splitComma (normalizeEmailsText s)).map extractAddr).map
        (pyStrip isWs)).filter (fun a => !a.isEmpty && !matchEmail a) := by
  simp only [extractedAddrs, List.filter_filter]
  congr 1
  funext a
  exact Bool.and_comm _ _

/-- C2. If any extracted address fails `_EMAIL_RE`, `parse_recipients` fails
with no list at all, and the error payload is `无效邮箱：` followed by exactly
the invalid extracted addresses: every listed address is invalid and no
well-formed extracted address is listed. -/
theorem c2_invalid_fails_atomically (s : List Char)
    (hbad : (extractedAddrs s).filter (fun a => !matchEmail a) ≠ []) :
    parseRecipients s =
      .error (("无效邮箱：".data) ++
        joinCS ((extractedAddrs s).filter (fun a => !matchEmail a))) ∧
    (∀ b ∈ (extractedAddrs s).filter (fun a => !matchEmail a),
      matchEmail b = false) ∧
    (∀ a ∈ extractedAddrs s, matchEmail a = true →
      a ∉ (extractedAddrs s).filter (fun a => !matchEmail a)) := by
  have hbadeq := extractedAddrs_filter_bad s
  by_cases hn : normalizeEmailsText s = []
  · exfalso
    apply hbad
    rw [hbadeq, hn]
    simp [splitComma, extractAddr, pyStrip]
  · refine ⟨?_, ?_, ?_⟩
    · have hbs : (((splitComma (normalizeEmailsText s)).map extractAddr).map
          (pyStrip isWs)).filter (fun a => !a.isEmpty && !matchEmail a) ≠ [] := by
        rw [← hbadeq]
        exact hbad
      rw [hbadeq]
      simp only [parseRecipients, if_neg hn, classify_eq]
      rw [if_neg hbs]
    · intro b hb
      have := List.of_mem_filter hb
      simpa using this
    · intro a _ hm hmem
      have := List.of_mem_filter hmem
      simp [hm] at this

/-- Concrete instantiation of `c2_invalid_fails_atomically` on the input
`"foo@, a@b.com"`, whose extracted address `foo@` is malformed. -/
theorem c2_invalid_fails_atomically_witness :
    parseRecipients ("foo@, a@b.com".data) =
      .error (("无效邮箱：".data) ++
        joinCS ((extractedAddrs ("foo@, a@b.com".data)).filter
          (fun a => !matchEmail a))) ∧
    (∀ b ∈ (extractedAddrs ("foo@, a@b.com".data)).filter
        (fun a => !matchEmail a), matchEmail b = false) ∧
    (∀ a ∈ extractedAddrs ("foo@, a@b.com".data), matchEmail a = true →
      a ∉ (extractedAddrs ("foo@, a@b.com".data)).filter
        (fun a => !matchEmail a)) :=
  c2_invalid_fails_atomically _ (by decide)

/-- True of every event except a session quit. -/
def notQuit (e : Event) : Bool :=
  match e with
  | .quitSession => false
  | _ => true

/-- True of every event except an archiver invocation. -/
def notInvoke (e : Event) : Bool :=
  match e with
  | .invokeArchiver _ _ _ => false
  | _ => true

/-- True of every event except a message send. -/
def notSend (e : Event) : Bool :=
  match e with
  | .send _ => false
  | _ => true

theorem not_mem_of_all {l : List Event} {f : Event → Bool}
    (h : l.all f = true) {e : Event} (hf : f e = false) : e ∉ l := by
  intro hm
  have := List.all_eq_true.mp h e hm
  rw [hf] at this
  exact Bool.false_ne_true this

theorem quit_not_mem_sendLoop (env : Env) (r : List (List Char)) (iv : Int)
    (t i : Nat) (parts : List String) :
    Event.quitSession ∉ (sendLoop env r iv t i parts).1 :=
  not_mem_of_all
    (sendLoop_all env r iv t notQuit rfl (fun _ => rfl) (fun _ => rfl) parts i)
    rfl

theorem quit_not_mem_archivePhase (env : Env) (p : StartPayload) :
    Event.quitSession ∉ (archivePhase env p).1 :=
  not_mem_of_all
    (archivePhase_all env p notQuit (fun _ => rfl) (fun _ => rfl) rfl
      (fun _ => rfl) (fun _ _ _ => rfl))
    rfl

theorem sendPhase_quit_cases (env : Env) (p : StartPayload) (total : Nat) :
    (sendPhase env p total).2 = none ∨
    Event.quitSession ∉ (sendPhase env p total).1 := by
  by_cases hc : env.sendConnectOk
  case neg => right; simp [sendPhase, hc]
  case pos =>
    cases hto : parseRecipients p.recipients with
    | error m => right; simp [sendPhase, hc, hto]
    | ok toL =>
      cases hcc : parseRecipients p.cc with
      | error m => right; simp [sendPhase, hc, hto, hcc]
      | ok ccL =>
        by_cases hemp : toL.isEmpty
        · right; simp [sendPhase, hc, hto, hcc, hemp]
        · cases hloop : (sendLoop env (toL ++ ccL) (max 0 p.sendIntervalSec)
              total 1 env.producedParts).2 with
          | some m =>
            right
            intro hm
            simp [sendPhase, hc, hto, hcc, hemp, hloop] at hm
            exact quit_not_mem_sendLoop env _ _ _ _ _ hm
          | none => left; simp [sendPhase, hc, hto, hcc, hemp, hloop]



theorem compressAndSend_quit_cases (env : Env) (p : StartPayload) :
    (compressAndSend env p).2 = none ∨
    Event.quitSession ∉ (compressAndSend env p).1 := by
  cases ha : (archivePhase env p).2 with
  | some m =>
    right
    intro hm
    simp only [compressAndSend, ha] at hm
    exact quit_not_mem_archivePhase env p hm
  | none =>
    rcases sendPhase_quit_cases env p env.producedParts.length with h | h
    · left; simp [compressAndSend, ha, h]
    · right
      intro hm
      simp [compressAndSend, ha, jobLogEvs] at hm
      rcases hm with hm | hm
      · exact quit_not_mem_archivePhase env p hm
      · exact h hm

theorem pipelineBody_quit_cases (env : Env) (p : StartPayload) :
    (pipelineBody env p).2 = none ∨
    Event.quitSession ∉ (pipelineBody env p).1 := by
  by_cases hh : effectiveHost env p = ""
  · right; simp [pipelineBody, hh]
  by_cases hpf : env.preflightOk
  case neg => right; simp [pipelineBody, hh, hpf, jobLogEvs]
  by_cases hd : env.sessionDirExists
  case neg => right; simp [pipelineBody, hh, hpf, hd, jobLogEvs]
  rcases compressAndSend_quit_cases env p with h | h
  · left; simp [pipelineBody, hh, hpf, hd, h]
  · right
    intro hm
    simp [pipelineBody, hh, hpf, hd, jobLogEvs] at hm
    exact h hm

theorem sendLoop_fail (env : Env) (r : List (List Char)) (iv : Int) (t i : Nat)
    (hfa : env.sendFailAt = some i) :
    ∀ (parts : List String) (idx : Nat), idx ≤ i → i < idx + parts.length →
      (sendLoop env r iv t idx parts).2 = some env.sendFailErr := by
  intro parts
  induction parts with
  | nil => intro idx h1 h2; simp at h2; omega
  | cons hd tl ih =>
    intro idx h1 h2
    simp only [sendLoop]
    by_cases hidx : i = idx
    · rw [if_pos (by rw [hfa, hidx])]
    · rw [if_neg (fun hh => hidx (by rw [hfa] at hh; exact Option.some.inj hh))]
      simp only []
      exact ih (idx + 1) (by omega) (by simp at h2; omega)

theorem sendPhase_none_elim (env : Env) (p : StartPayload) (total : Nat)
    (h : (sendPhase env p total).2 = none) :
    ∃ toL ccL, parseRecipients p.recipients = .ok toL ∧
      parseRecipients p.cc = .ok ccL ∧
      (sendLoop env (toL ++ ccL) (max 0 p.sendIntervalSec) total 1
        env.producedParts).2 = none := by
  by_cases hc : env.sendConnectOk
  case neg => simp [sendPhase, hc] at h
  case pos =>
    cases hto : parseRecipients p.recipients with
    | error m => simp [sendPhase, hc, hto] at h
    | ok toL =>
      cases hcc : parseRecipients p.cc with
      | error m => simp [sendPhase, hc, hto, hcc] at h
      | ok ccL =>
        by_cases hemp : toL.isEmpty
        · simp [sendPhase, hc, hto, hcc, hemp] at h
        · cases hloop : (sendLoop env (toL ++ ccL) (max 0 p.sendIntervalSec)
              total 1 env.producedParts).2 with
          | some m => simp [sendPhase, hc, hto, hcc, hemp, hloop] at h
          | none => exact ⟨toL, ccL, rfl, rfl, hloop⟩

theorem compressAndSend_none_elim (env : Env) (p : StartPayload)
    (h : (compressAndSend env p).2 = none) :
    (sendPhase env p env.producedParts.length).2 = none := by
  cases ha : (archivePhase env p).2 with
  | some m => simp [compressAndSend, ha] at h
  | none => simpa [compressAndSend, ha] using h

theorem pipelineBody_none_elim (env : Env) (p : StartPayload)
    (h : (pipelineBody env p).2 = none) :
    (compressAndSend env p).2 = none := by
  by_cases hh : effectiveHost env p = ""
  · simp [pipelineBody, hh] at h
  by_cases hpf : env.preflightOk
  case neg => simp [pipelineBody, hh, hpf] at h
  by_cases hd : env.sessionDirExists
  case neg => simp [pipelineBody, hh, hpf, hd] at h
  simpa [pipelineBody, hh, hpf, hd] using h



theorem sendPhase_none_quit (env : Env) (p : StartPayload) (total : Nat)
    (h : (sendPhase env p total).2 = none) :
    Event.quitSession ∈ (sendPhase env p total).1 := by
  by_cases hc : env.sendConnectOk
  case neg => simp [sendPhase, hc] at h
  case pos =>
    cases hto : parseRecipients p.recipients with
    | error m => simp [sendPhase, hc, hto] at h
    | ok toL =>
      cases hcc : parseRecipients p.cc with
      | error m => simp [sendPhase, hc, hto, hcc] at h
      | ok ccL =>
        by_cases hemp : toL.isEmpty
        · simp [sendPhase, hc, hto, hcc, hemp] at h
        · cases hloop : (sendLoop env (toL ++ ccL) (max 0 p.sendIntervalSec)
              total 1 env.producedParts).2 with
          | some m => simp [sendPhase, hc, hto, hcc, hemp, hloop] at h
          | none => simp [sendPhase, hc, hto, hcc, hemp, hloop, jobLogEvs]

theorem pipelineBody_none_quit (env : Env) (p : StartPayload)
    (h : (pipelineBody env p).2 = none) :
    Event.quitSession ∈ (pipelineBody env p).1 := by
  have hcs := pipelineBody_none_elim env p h
  have hsp := compressAndSend_none_elim env p hcs
  have hq := sendPhase_none_quit env p env.producedParts.length hsp
  have hq2 : Event.quitSession ∈ (compressAndSend env p).1 := by
    cases ha : (archivePhase env p).2 with
    | some m => simp [compressAndSend, ha] at hcs
    | none => simp [compressAndSend, ha, jobLogEvs]; right; exact hq
  by_cases hh : effectiveHost env p = ""
  · simp [pipelineBody, hh] at h
  by_cases hpf : env.preflightOk
  case neg => simp [pipelineBody, hh, hpf] at h
  by_cases hd : env.sessionDirExists
  case neg => simp [pipelineBody, hh, hpf, hd] at h
  simp [pipelineBody, hh, hpf, hd, jobLogEvs]
  exact hq2

/-- C9 (amended). The send session is closed exactly on the all-success path:
when the whole pipeline body succeeds the trace contains the session quit, and
when a send fails mid-sequence (failure index within the volume range) no quit
is ever attempted, the remaining sends are aborted and the job ends in
`Error`. -/
theorem c9_close_only_on_success (env : Env) (p : StartPayload) :
    ((pipelineBody env p).2 = none → Event.quitSession ∈ runJob env p) ∧
    (∀ i, env.sendFailAt = some i → 1 ≤ i → i ≤ env.producedParts.length →
      Event.quitSession ∉ runJob env p ∧
      statusWrites (runJob env p) = [JobStatus.RUNNING, JobStatus.ERROR]) := by
  constructor
  · intro h
    have hq := pipelineBody_none_quit env p h
    rcases hb : pipelineBody env p with ⟨evs, opt⟩
    rw [hb] at h hq
    simp only at h hq
    subst h
    simp [runJob, hb]
    exact hq
  · intro i hfa h1 h2
    have hsome : ¬(pipelineBody env p).2 = none := by
      intro hnone
      obtain ⟨toL, ccL, hto, hcc, hloop⟩ :=
        sendPhase_none_elim env p _
          (compressAndSend_none_elim env p (pipelineBody_none_elim env p hnone))
      rw [sendLoop_fail env _ _ _ i hfa env.producedParts 1 h1 (by omega)]
        at hloop
      exact Option.noConfusion hloop
    have hquit : Event.quitSession ∉ (pipelineBody env p).1 := by
      rcases pipelineBody_quit_cases env p with h | h
      · exact absurd h hsome
      · exact h
    rcases hb : pipelineBody env p with ⟨evs, opt⟩
    rw [hb] at hsome hquit
    simp only at hsome hquit
    cases opt with
    | none => exact absurd rfl hsome
    | some msg =>
      have hsw : statusWrites evs = [] := by
        have := statusWrites_pipelineBody env p
        rw [hb] at this
        simpa using this
      constructor
      · intro hm
        simp [runJob, hb, jobLogEvs] at hm
        exact hquit hm
      · simp [runJob, hb, statusWrites, toStatus, jobLogEvs,
          List.filterMap_append]
        simpa [statusWrites] using hsw



/-- A fully successful environment: pre-flight passes, the archiver is cached
and produces two volumes, both sends succeed. -/
def envOk : Env :=
  { smtpHostCfg := "smtp.example"
    preflightOk := true
    preflightErr := ""
    sessionDirExists := true
    sevenzGlobal := some "/data/7z/7zz"
    ensureResult := .ok "/data/7z/7zz"
    mainArchiveExists := false
    oldParts := []
    compressExit := 0
    compressLines := ["Scanning", "Done"]
    producedParts := ["mydata.7z.001", "mydata.7z.002"]
    sendConnectOk := true
    sendConnectErr := ""
    sendFailAt := none
    sendFailErr := "smtp send refused" }

/-- A start request with one To and one Cc recipient that are the same address
in different casing. -/
def pOk : StartPayload :=
  { outputBasename := "mydata"
    volumeSizeMb := 20
    sendIntervalSec := 0
    recipients := "A@x.com".data
    cc := "a@X.com".data
    smtpHost := some "smtp.example" }

/-- C9 (counterexample). In a run whose first send fails mid-sequence, a send
session was opened but the trace contains no session quit: the code never
attempts to close on the failure path, refuting the claim that close is always
attempted. -/
theorem c9_counterexample :
    ({ envOk with sendFailAt := some 1 }).sendFailAt = some 1 ∧
    2 ≤ ({ envOk with sendFailAt := some 1 }).producedParts.length ∧
    Event.connectSend ∈ runJob { envOk with sendFailAt := some 1 } pOk ∧
    Event.quitSession ∉ runJob { envOk with sendFailAt := some 1 } pOk ∧
    statusWrites (runJob { envOk with sendFailAt := some 1 } pOk) =
      [JobStatus.RUNNING, JobStatus.ERROR] := by
  decide

/-- Concrete instantiation of `c9_close_only_on_success`: on `envOk` the
pipeline succeeds and quits the session; with `sendFailAt := some 1` no quit
happens and the job errors. -/
theorem c9_close_only_on_success_witness :
    (((pipelineBody envOk pOk).2 = none →
        Event.quitSession ∈ runJob envOk pOk) ∧
      (∀ i, envOk.sendFailAt = some i → 1 ≤ i →
        i ≤ envOk.producedParts.length →
        Event.quitSession ∉ runJob envOk pOk ∧
        statusWrites (runJob envOk pOk) =
          [JobStatus.RUNNING, JobStatus.ERROR])) ∧
    Event.quitSession ∈ runJob envOk pOk :=
  ⟨c9_close_only_on_success envOk pOk,
    (c9_close_only_on_success envOk pOk).1 (by decide)⟩



theorem mem_dedupCI : ∀ (seen : List (List Char)) (xs : List (List Char))
    (e : List Char), e ∈ dedupCI seen xs → e ∈ xs := by
  intro seen xs
  induction xs generalizing seen with
  | nil => intro e he; simp [dedupCI] at he
  | cons a rest ih =>
    intro e he
    simp only [dedupCI] at he
    split at he
    · exact List.mem_cons_of_mem _ (ih seen e he)
    · rcases List.mem_cons.mp he with rfl | h2
      · exact List.mem_cons_self _ _
      · exact List.mem_cons_of_mem _ (ih _ e h2)

theorem dedupCI_lower_not_seen : ∀ (seen : List (List Char))
    (xs : List (List Char)) (e : List Char),
    e ∈ dedupCI seen xs → lowerList e ∉ seen := by
  intro seen xs
  induction xs generalizing seen with
  | nil => intro e he; simp [dedupCI] at he
  | cons a rest ih =>
    intro e he
    simp only [dedupCI] at he
    split at he
    · exact ih seen e he
    · rcases List.mem_cons.mp he with rfl | h2
      · assumption
      · have := ih _ e h2
        intro hc
        exact this (List.mem_cons_of_mem _ hc)

theorem dedupCI_pairwise : ∀ (seen : List (List Char)) (xs : List (List Char)),
    (dedupCI seen xs).Pairwise (fun a b => lowerList a ≠ lowerList b) := by
  intro seen xs
  induction xs generalizing seen with
  | nil => simp [dedupCI]
  | cons a rest ih =>
    simp only [dedupCI]
    split
    · exact ih seen
    · refine List.Pairwise.cons ?_ (ih _)
      intro b hb hc
      have := dedupCI_lower_not_seen _ _ _ hb
      exact this (by rw [← hc]; exact List.mem_cons_self _ _)

theorem parse_ok_pairwise {s : List Char} {L : List (List Char)}
    (h : parseRecipients s = .ok L) :
    L.Pairwise (fun a b => lowerList a ≠ lowerList b) := by
  by_cases hn : normalizeEmailsText s = []
  · simp [parseRecipients, hn] at h
    subst h
    exact List.Pairwise.nil
  · simp only [parseRecipients, if_neg hn, classify_eq] at h
    split at h
    · have := Except.ok.inj h
      subst this
      exact dedupCI_pairwise _ _
    · exact Except.noConfusion h

theorem countP_lower_eq_one {L : List (List Char)} {x : List Char}
    (hp : L.Pairwise (fun a b => lowerList a ≠ lowerList b)) (hx : x ∈ L) :
    L.countP (fun r => decide (lowerList r = lowerList x)) = 1 := by
  induction L with
  | nil => simp at hx
  | cons a rest ih =>
    rcases List.pairwise_cons.mp hp with ⟨ha, hrest⟩
    rcases List.mem_cons.mp hx with rfl | hx2
    · rw [List.countP_cons]
      have hzero : rest.countP
          (fun r => decide (lowerList r = lowerList x)) = 0 := by
        rw [List.countP_eq_zero]
        intro b hb
        simpa using fun hc => (ha b hb) hc.symm
      simp [hzero]
    · rw [List.countP_cons]
      have hne : lowerList a ≠ lowerList x := ha x hx2
      simp [ih hrest hx2, hne]

theorem sendPhase_send_shape (env : Env) (p : StartPayload) (total : Nat)
    (rs : List (List Char)) (hm : Event.send rs ∈ (sendPhase env p total).1) :
    ∃ toL ccL, parseRecipients p.recipients = .ok toL ∧
      parseRecipients p.cc = .ok ccL ∧ toL ≠ [] ∧ rs = toL ++ ccL := by
  by_cases hc : env.sendConnectOk
  case neg => simp [sendPhase, hc] at hm
  case pos =>
    cases hto : parseRecipients p.recipients with
    | error m => simp [sendPhase, hc, hto] at hm
    | ok toL =>
      cases hcc : parseRecipients p.cc with
      | error m => simp [sendPhase, hc, hto, hcc] at hm
      | ok ccL =>
        by_cases hemp : toL.isEmpty
        · simp [sendPhase, hc, hto, hcc, hemp] at hm
        · refine ⟨toL, ccL, rfl, rfl, by simpa using hemp, ?_⟩
          cases hloop : (sendLoop env (toL ++ ccL) (max 0 p.sendIntervalSec)
              total 1 env.producedParts).2 with
          | some m =>
            simp [sendPhase, hc, hto, hcc, hemp, hloop, jobLogEvs] at hm
            rcases sendLoop_events env (toL ++ ccL) _ total _ _ _ hm with
              h | ⟨m2, h⟩ | ⟨m2, h⟩
            · exact (Event.send.inj h)
            · exact Event.noConfusion h
            · exact Event.noConfusion h
          | none =>
            simp [sendPhase, hc, hto, hcc, hemp, hloop, jobLogEvs] at hm
            rcases sendLoop_events env (toL ++ ccL) _ total _ _ _ hm with
              h | ⟨m2, h⟩ | ⟨m2, h⟩
            · exact (Event.send.inj h)
            · exact Event.noConfusion h
            · exact Event.noConfusion h

theorem compressAndSend_send_shape (env : Env) (p : StartPayload)
    (rs : List (List Char)) (hm : Event.send rs ∈ (compressAndSend env p).1) :
    ∃ toL ccL, parseRecipients p.recipients = .ok toL ∧
      parseRecipients p.cc = .ok ccL ∧ toL ≠ [] ∧ rs = toL ++ ccL := by
  have hns : Event.send rs ∉ (archivePhase env p).1 :=
    not_mem_of_all
      (archivePhase_all env p notSend (fun _ => rfl) (fun _ => rfl) rfl
        (fun _ => rfl) (fun _ _ _ => rfl))
      rfl
  cases ha : (archivePhase env p).2 with
  | some m =>
    simp only [compressAndSend, ha] at hm
    exact absurd hm hns
  | none =>
    simp [compressAndSend, ha, jobLogEvs] at hm
    rcases hm with hm | hm
    · exact absurd hm hns
    · exact sendPhase_send_shape env p _ rs hm

theorem pipelineBody_send_shape (env : Env) (p : StartPayload)
    (rs : List (List Char)) (hm : Event.send rs ∈ (pipelineBody env p).1) :
    ∃ toL ccL, parseRecipients p.recipients = .ok toL ∧
      parseRecipients p.cc = .ok ccL ∧ toL ≠ [] ∧ rs = toL ++ ccL := by
  by_cases hh : effectiveHost env p = ""
  · simp [pipelineBody, hh] at hm
  by_cases hpf : env.preflightOk
  case neg => simp [pipelineBody, hh, hpf, jobLogEvs] at hm
  by_cases hd : env.sessionDirExists
  case neg => simp [pipelineBody, hh, hpf, hd, jobLogEvs] at hm
  simp [pipelineBody, hh, hpf, hd, jobLogEvs] at hm
  exact compressAndSend_send_shape env p rs hm

theorem runJob_send_shape (env : Env) (p : StartPayload)
    (rs : List (List Char)) (hm : Event.send rs ∈ runJob env p) :
    ∃ toL ccL, parseRecipients p.recipients = .ok toL ∧
      parseRecipients p.cc = .ok ccL ∧ toL ≠ [] ∧ rs = toL ++ ccL := by
  rcases hb : pipelineBody env p with ⟨evs, opt⟩
  have hevs : Event.send rs ∈ evs → _ :=
    fun hin => pipelineBody_send_shape env p rs (by rw [hb]; exact hin)
  cases opt with
  | none =>
    simp [runJob, hb] at hm
    exact hevs hm
  | some m =>
    simp [runJob, hb, jobLogEvs] at hm
    exact hevs hm



/-- C10. The envelope of every sent message is the parsed To list concatenated
with the parsed Cc list with no cross-list deduplication: an address occurring
(under any casing) in both the To text and the Cc text appears exactly twice
among the envelope recipients of every sent message. -/
theorem c10_envelope_no_cross_dedup (env : Env) (p : StartPayload)
    (toL ccL : List (List Char)) (x y : List Char)
    (hto : parseRecipients p.recipients = .ok toL)
    (hcc : parseRecipients p.cc = .ok ccL)
    (hx : x ∈ toL) (hy : y ∈ ccL) (hxy : lowerList x = lowerList y) :
    ∀ rs, Event.send rs ∈ runJob env p →
      rs = toL ++ ccL ∧
      rs.countP (fun r => decide (lowerList r = lowerList x)) = 2 := by
  intro rs hm
  obtain ⟨toL2, ccL2, hto2, hcc2, hne2, rfl⟩ := runJob_send_shape env p rs hm
  rw [hto] at hto2
  rw [hcc] at hcc2
  obtain rfl : toL = toL2 := Except.ok.inj hto2
  obtain rfl : ccL = ccL2 := Except.ok.inj hcc2
  refine ⟨rfl, ?_⟩
  rw [List.countP_append]
  have h1 : toL.countP (fun r => decide (lowerList r = lowerList x)) = 1 :=
    countP_lower_eq_one (parse_ok_pairwise hto) hx
  have h2 : ccL.countP (fun r => decide (lowerList r = lowerList x)) = 1 := by
    rw [hxy]
    exact countP_lower_eq_one (parse_ok_pairwise hcc) hy
  omega

/-- Concrete instantiation of `c10_envelope_no_cross_dedup`: `A@x.com` in To
and `a@X.com` in Cc; a send occurs and its envelope holds the address twice. -/
theorem c10_envelope_no_cross_dedup_witness :
    (∀ rs, Event.send rs ∈ runJob envOk pOk →
      rs = ["A@x.com".data] ++ ["a@X.com".data] ∧
      rs.countP
        (fun r => decide (lowerList r = lowerList ("A@x.com".data))) = 2) ∧
    Event.send (["A@x.com".data] ++ ["a@X.com".data]) ∈ runJob envOk pOk :=
  ⟨c10_envelope_no_cross_dedup envOk pOk ["A@x.com".data] ["a@X.com".data]
      ("A@x.com".data) ("a@X.com".data) (by decide) (by decide)
      (by decide) (by decide) (by decide),
    by decide⟩



theorem archivePhase_lines (env : Env) (p : StartPayload) :
    ((archivePhase env p).1.all notInvoke = true) ∨
    ∀ line ∈ env.compressLines,
      Event.procLog line ∈ (archivePhase env p).1 := by
  simp only [archivePhase]
  split
  · left
    split <;> rfl
  · right
    intro line hline
    have hx : Event.procLog line ∈ env.compressLines.map Event.procLog :=
      List.mem_map_of_mem _ hline
    repeat' split
    all_goals simp only [List.mem_append, List.mem_cons]
    all_goals tauto



theorem invoke_not_mem_sendPhase (env : Env) (p : StartPayload) (total : Nat)
    (a : String) (b : Int) (c : String) :
    Event.invokeArchiver a b c ∉ (sendPhase env p total).1 :=
  not_mem_of_all
    (sendPhase_all env p total notInvoke (fun _ => rfl) (fun _ => rfl) rfl
      (fun _ => rfl) rfl)
    rfl

theorem compressAndSend_lines (env : Env) (p : StartPayload) :
    ((compressAndSend env p).1.all notInvoke = true) ∨
    ∀ line ∈ env.compressLines,
      Event.procLog line ∈ (compressAndSend env p).1 := by
  cases ha : (archivePhase env p).2 with
  | some m =>
    rcases archivePhase_lines env p with h | h
    · left; simpa [compressAndSend, ha] using h
    · right
      intro line hline
      simpa [compressAndSend, ha] using h line hline
  | none =>
    rcases archivePhase_lines env p with h | h
    · left
      simp only [compressAndSend, ha, List.all_append, Bool.and_eq_true]
      refine ⟨⟨h, rfl⟩, ?_⟩
      exact sendPhase_all env p _ notInvoke (fun _ => rfl) (fun _ => rfl) rfl
        (fun _ => rfl) rfl
    · right
      intro line hline
      simp only [compressAndSend, ha, List.mem_append]
      exact Or.inl (Or.inl (h line hline))

theorem pipelineBody_lines (env : Env) (p : StartPayload) :
    ((pipelineBody env p).1.all notInvoke = true) ∨
    ∀ line ∈ env.compressLines,
      Event.procLog line ∈ (pipelineBody env p).1 := by
  by_cases hh : effectiveHost env p = ""
  · left; simp [pipelineBody, hh]
  by_cases hpf : env.preflightOk
  case neg => left; simp [pipelineBody, hh, hpf, jobLogEvs, notInvoke]
  by_cases hd : env.sessionDirExists
  case neg => left; simp [pipelineBody, hh, hpf, hd, jobLogEvs, notInvoke]
  rcases compressAndSend_lines env p with h | h
  · left
    simp [pipelineBody, hh, hpf, hd, jobLogEvs, notInvoke, List.all_append, h]
  · right
    intro line hline
    simp [pipelineBody, hh, hpf, hd, jobLogEvs, List.mem_append]
    exact Or.inr (Or.inr (h line hline))



/-- C5 (amended). While the archiver child process runs, every line of its
combined stdout/stderr is written line-by-line to the process-wide operational
logger (`logger.info`, line 483) — not to the job's own log. -/
theorem c5_archiver_lines_to_process_log (env : Env) (p : StartPayload)
    (a : String) (b : Int) (c : String)
    (hm : Event.invokeArchiver a b c ∈ runJob env p) :
    ∀ line ∈ env.compressLines, line ∈ procLogMsgs (runJob env p) := by
  rcases hb : pipelineBody env p with ⟨evs, opt⟩
  have hmevs : Event.invokeArchiver a b c ∈ evs := by
    cases opt with
    | none => simpa [runJob, hb, jobLogEvs] using hm
    | some m => simpa [runJob, hb, jobLogEvs] using hm
  rcases pipelineBody_lines env p with h | h
  · exfalso
    rw [hb] at h
    simp only at h
    exact absurd hmevs (not_mem_of_all h rfl)
  · intro line hline
    have hp := h line hline
    rw [hb] at hp
    simp only at hp
    have hmem : Event.procLog line ∈ runJob env p := by
      cases opt with
      | none =>
        simp [runJob, hb, jobLogEvs]
        exact hp
      | some m =>
        simp [runJob, hb, jobLogEvs]
        exact Or.inl hp
    exact List.mem_filterMap.mpr ⟨Event.procLog line, hmem, rfl⟩

/-- C5 (counterexample). In a successful run, the archiver is invoked and its
output line `Scanning` reaches the process-wide operational log but never the
job's own log, so it is not visible through status polling — refuting the
claim that archiver output is appended to the job's log. -/
theorem c5_counterexample :
    "Scanning" ∈ envOk.compressLines ∧
    Event.invokeArchiver "/data/7z/7zz" 20 "mydata.7z" ∈ runJob envOk pOk ∧
    "Scanning" ∈ procLogMsgs (runJob envOk pOk) ∧
    "Scanning" ∉ jobLogMsgs (runJob envOk pOk) := by
  refine ⟨by decide, by decide, by decide, by decide⟩

/-- Concrete instantiation of `c5_archiver_lines_to_process_log` at the
archiver output line `Scanning`. -/
theorem c5_archiver_lines_to_process_log_witness :
    "Scanning" ∈ envOk.compressLines ∧
    "Scanning" ∈ procLogMsgs (runJob envOk pOk) :=
  ⟨by decide,
    c5_archiver_lines_to_process_log envOk pOk "/data/7z/7zz" 20 "mydata.7z"
      (by decide) "Scanning" (by decide)⟩

/-- Characters allowed anywhere in a validated address: the local class plus
the separating `@` (the domain class is a subset of the local class). -/
def emailChar (c : Char) : Bool :=
  isLocalChar c || c = '@'

theorem ne_of_emailChar {c k : Char} (h : emailChar c = true)
    (hk : emailChar k = false) : c ≠ k := by
  intro hc
  rw [hc, hk] at h
  exact Bool.noConfusion h

theorem emailChar_props {c : Char} (h : emailChar c = true) :
    fullwidthMap c = c ∧ isWs c = false ∧ isSep2 c = false ∧
    isStripped c = false ∧ c ≠ ',' ∧ c ≠ '<' := by
  have hne : ∀ k : Char, emailChar k = false → c ≠ k :=
    fun k hk => ne_of_emailChar h hk
  refine ⟨?_, ?_, ?_, ?_, hne ',' (by decide), hne '<' (by decide)⟩
  · simp [fullwidthMap, hne '，' (by decide), hne '；' (by decide),
      hne '。' (by decide), hne '＠' (by decide), hne '（' (by decide),
      hne '）' (by decide), hne '【' (by decide), hne '】' (by decide),
      hne '：' (by decide), hne '、' (by decide), hne '　' (by decide)]
  · simp [isWs, hne ' ' (by decide), hne '\t' (by decide),
      hne '\n' (by decide), hne '\r' (by decide), hne '\x0b' (by decide),
      hne '\x0c' (by decide)]
  · simp [isSep2, isWs, hne ';' (by decide), hne ' ' (by decide),
      hne '\t' (by decide), hne '\n' (by decide), hne '\r' (by decide),
      hne '\x0b' (by decide), hne '\x0c' (by decide), hne '，' (by decide),
      hne '；' (by decide), hne '、' (by decide)]
  · simp [isStripped, hne ' ' (by decide), hne ',' (by decide),
      hne ';' (by decide)]

theorem isLocalChar_emailChar {c : Char} (h : isLocalChar c = true) :
    emailChar c = true := by
  simp [emailChar, h]

theorem isDomainChar_isLocalChar {c : Char} (h : isDomainChar c = true) :
    isLocalChar c = true := by
  simp only [isDomainChar, decide_eq_true_eq, Bool.or_eq_true] at h
  simp only [isLocalChar, decide_eq_true_eq, Bool.or_eq_true]
  tauto

/-- Structure of a validated address: non-empty, every character is an email
character, and the first character is in the local class. -/
theorem matchEmail_elim {e : List Char} (h : matchEmail e = true) :
    (∀ c ∈ e, emailChar c = true) ∧
    ∃ h0 t0, e = h0 :: t0 ∧ isLocalChar h0 = true := by
  unfold matchEmail at h
  split at h
  case h_2 => exact Bool.noConfusion h
  case h_1 rest heq =>
    rw [Bool.and_eq_true] at h
    obtain ⟨hloc, hdom⟩ := h
    have hsplit : e.takeWhile isLocalChar ++ ('@' :: rest) = e := by
      rw [← heq]
      exact List.takeWhile_append_dropWhile _ _
    have htw : ∀ c ∈ e.takeWhile isLocalChar, isLocalChar c = true :=
      fun c hc => List.mem_takeWhile_imp hc
    have hrest : ∀ c ∈ rest, isDomainChar c = true := by
      have hdom2 : rest.all isDomainChar = true := by
        unfold matchDomain at hdom
        rw [Bool.and_eq_true] at hdom
        exact hdom.1
      exact fun c hc => List.all_eq_true.mp hdom2 c hc
    constructor
    · intro c hc
      rw [← hsplit] at hc
      rcases List.mem_append.mp hc with h1 | h1
      · exact isLocalChar_emailChar (htw c h1)
      · rcases List.mem_cons.mp h1 with rfl | h2
        · simp [emailChar]
        · exact isLocalChar_emailChar
            (isDomainChar_isLocalChar (hrest c h2))
    · cases htake : e.takeWhile isLocalChar with
      | nil =>
        rw [htake] at hloc
        simp at hloc
      | cons h0 t0 =>
        refine ⟨h0, t0 ++ '@' :: rest, ?_, ?_⟩
        · rw [← hsplit, htake]
          simp
        · have : h0 ∈ e.takeWhile isLocalChar := by
            rw [htake]
            exact List.mem_cons_self _ _
          exact htw h0 this



/-- A well-formed list entry as produced by `parse_recipients`: non-empty,
email characters only, first character in the local class. -/
def goodAddr (b : List Char) : Prop :=
  (∀ c ∈ b, emailChar c = true) ∧ ∃ h0 t0, b = h0 :: t0 ∧ isLocalChar h0 = true

/-- The tail shape of `", ".join`: a separator before each further element. -/
def joinTail : List (List Char) → List Char
  | [] => []
  | b :: r => ',' :: ' ' :: (b ++ joinTail r)

theorem joinCS_cons (a : List Char) (rest : List (List Char)) :
    joinCS (a :: rest) = a ++ joinTail rest := by
  induction rest generalizing a with
  | nil => simp [joinCS, joinTail]
  | cons b r ih =>
    rw [joinCS, joinTail, ih]
    try simp

theorem joinTail_head_not_ws (rest : List (List Char)) :
    ∀ h ∈ (joinTail rest).head?, isWs h = false := by
  cases rest with
  | nil => simp [joinTail]
  | cons b r =>
    intro h hh
    simp [joinTail] at hh
    subst hh
    decide

/-- Non-whitespace characters pass through `sub1go` unchanged and reset its
state, provided the remainder does not begin with whitespace. -/
theorem sub1go_append (x : List Char) : ∀ (sw : Bool) (rest : List Char),
    (∀ c ∈ x, isWs c = false) → (∀ h ∈ rest.head?, isWs h = false) →
    sub1go sw [] (x ++ rest) = x ++ sub1go false [] rest := by
  induction x with
  | nil =>
    intro sw rest _ hrest
    cases rest with
    | nil => rfl
    | cons h t =>
      have hw : isWs h = false := hrest h rfl
      simp only [List.nil_append, sub1go, hw, Bool.false_eq_true, if_false]
      try rfl
  | cons c cs ih =>
    intro sw rest hx hrest
    have hc : isWs c = false := hx c (List.mem_cons_self _ _)
    have hcs : ∀ d ∈ cs, isWs d = false :=
      fun d hd => hx d (List.mem_cons_of_mem _ hd)
    simp only [List.cons_append, sub1go, hc, Bool.false_eq_true, if_false]
    by_cases hat : c = '@' ∨ c = '.'
    · rw [if_pos hat]
      simp only [List.append_eq]
      rw [ih true rest hcs hrest]
    · rw [if_neg hat]
      simp only [List.append_eq, List.reverse_nil, List.nil_append]
      rw [ih false rest hcs hrest]



/-- Separator left by the first substitution: the blank after the comma
survives unless the next address begins with a dot (then `\s*\.` eats it). -/
def sep1 (b : List Char) : List Char :=
  if b.head? = some '.' then [','] else [',', ' ']

theorem sub1_joinTail : ∀ r : List (List Char), (∀ b ∈ r, goodAddr b) →
    sub1go false [] (joinTail r) = r.flatMap (fun b => sep1 b ++ b) := by
  intro r
  induction r with
  | nil => intro _; rfl
  | cons b r2 ih =>
    intro hg
    obtain ⟨hchars, h0, t0, rfl, hloc⟩ := hg b (List.mem_cons_self _ _)
    have hr2 : ∀ x ∈ r2, goodAddr x := fun x hx => hg x (List.mem_cons_of_mem _ hx)
    have ht0 : ∀ c ∈ t0, isWs c = false := fun c hc =>
      (emailChar_props (hchars c (List.mem_cons_of_mem _ hc))).2.1
    have hh0ws : isWs h0 = false :=
      (emailChar_props (hchars h0 (List.mem_cons_self _ _))).2.1
    have hh0at : ¬h0 = '@' := by
      intro hc
      rw [hc] at hloc
      exact absurd hloc (by decide)
    have hjt : ∀ h ∈ (joinTail r2).head?, isWs h = false :=
      joinTail_head_not_ws r2
    simp only [joinTail, List.cons_append, sub1go]
    rw [if_neg (by decide : ¬isWs ',' = true),
      if_neg (by decide : ¬(',' = '@' ∨ ',' = '.')),
      if_pos (by decide : isWs ' ' = true)]
    simp only [Bool.false_eq_true, if_false, List.reverse_nil, List.nil_append]
    simp only [List.cons_append, sub1go, hh0ws, Bool.false_eq_true, if_false]
    by_cases hdot : h0 = '.'
    · rw [if_pos (Or.inr hdot)]
      simp only [List.append_eq]
      rw [sub1go_append t0 true (joinTail r2) ht0 hjt, ih hr2]
      simp [sep1, hdot, List.flatMap_cons]
    · rw [if_neg (by tauto)]
      simp only [List.append_eq, List.reverse_singleton]
      rw [sub1go_append t0 false (joinTail r2) ht0 hjt, ih hr2]
      simp only [sep1, List.head?_cons, List.flatMap_cons]
      rw [if_neg (by simpa using hdot)]
      simp



/-- Separator left by the second substitution: the surviving blank collapses
to a comma, so the separator is `,` before a dot-initial address and `,,`
otherwise. -/
def sep2f (b : List Char) : List Char :=
  if b.head? = some '.' then [','] else [',', ',']

theorem sub2go_pass : ∀ (x : List Char) (inR : Bool) (rest : List Char),
    x ≠ [] → (∀ c ∈ x, isSep2 c = false) →
    sub2go inR (x ++ rest) = x ++ sub2go false rest := by
  intro x
  induction x with
  | nil => intro inR rest hne _; exact absurd rfl hne
  | cons c cs ih =>
    intro inR rest _ hx
    have hc : isSep2 c = false := hx c (List.mem_cons_self _ _)
    simp only [List.cons_append, sub2go, hc, Bool.false_eq_true, if_false]
    cases cs with
    | nil => simp
    | cons d ds =>
      simp only [List.append_eq]
      rw [ih false rest (by simp) (fun e he => hx e (List.mem_cons_of_mem _ he))]

theorem sub2_joinParts : ∀ r : List (List Char), (∀ b ∈ r, goodAddr b) →
    sub2go false (r.flatMap (fun b => sep1 b ++ b)) =
      r.flatMap (fun b => sep2f b ++ b) := by
  intro r
  induction r with
  | nil => intro _; rfl
  | cons b r2 ih =>
    intro hg
    obtain ⟨hchars, h0, t0, hb, hloc⟩ := hg b (List.mem_cons_self _ _)
    have hr2 : ∀ x ∈ r2, goodAddr x := fun x hx => hg x (List.mem_cons_of_mem _ hx)
    have hbs : ∀ c ∈ b, isSep2 c = false := fun c hc =>
      (emailChar_props (hchars c hc)).2.2.1
    have hbne : b ≠ [] := by rw [hb]; simp
    simp only [List.flatMap_cons, List.append_assoc]
    by_cases hdot : b.head? = some '.'
    · have hs1 : sep1 b = [','] := by simp [sep1, hdot]
      have hs2 : sep2f b = [','] := by simp [sep2f, hdot]
      rw [hs1, hs2]
      simp only [List.singleton_append, List.cons_append, sub2go,
        (by decide : isSep2 ',' = false), Bool.false_eq_true, if_false,
        List.nil_append, List.append_eq]
      rw [sub2go_pass b false _ hbne hbs, ih hr2]
    · have hs1 : sep1 b = [',', ' '] := by simp [sep1, hdot]
      have hs2 : sep2f b = [',', ','] := by simp [sep2f, hdot]
      rw [hs1, hs2]
      simp only [List.cons_append, sub2go,
        (by decide : isSep2 ',' = false), (by decide : isSep2 ' ' = true),
        Bool.false_eq_true, if_false, if_true, List.nil_append,
        List.append_eq]
      rw [sub2go_pass b true _ hbne hbs, ih hr2]



theorem dropWhile_id_of_head {p : Char → Bool} {l : List Char}
    (h : ∀ c ∈ l.head?, p c = false) : l.dropWhile p = l := by
  cases l with
  | nil => rfl
  | cons c cs =>
    have hc := h c rfl
    simp [List.dropWhile_cons, hc]

theorem pyStrip_id_head_last {p : Char → Bool} {l : List Char}
    (h1 : ∀ c ∈ l.head?, p c = false) (h2 : ∀ c ∈ l.getLast?, p c = false) :
    pyStrip p l = l := by
  unfold pyStrip
  rw [dropWhile_id_of_head h1, dropWhile_id_of_head
    (by rw [List.head?_reverse]; exact h2), List.reverse_reverse]

theorem pyStrip_id_of_all {p : Char → Bool} {l : List Char}
    (h : ∀ c ∈ l, p c = false) : pyStrip p l = l := by
  refine pyStrip_id_head_last (fun c hc => ?_) (fun c hc => ?_)
  · exact h c (by cases l with
      | nil => exact absurd hc (by simp)
      | cons a t => simp at hc; subst hc; exact List.mem_cons_self _ _)
  · obtain ⟨hne, rfl⟩ := List.mem_getLast?_eq_getLast hc
    exact h _ (List.getLast_mem hne)



theorem mem_joinTail {c : Char} : ∀ {r : List (List Char)}, c ∈ joinTail r →
    c = ',' ∨ c = ' ' ∨ ∃ b ∈ r, c ∈ b := by
  intro r
  induction r with
  | nil => intro h; simp [joinTail] at h
  | cons b r2 ih =>
    intro h
    simp only [joinTail, List.mem_cons, List.mem_append] at h
    rcases h with rfl | rfl | h | h
    · exact Or.inl rfl
    · exact Or.inr (Or.inl rfl)
    · exact Or.inr (Or.inr ⟨b, List.mem_cons_self _ _, h⟩)
    · rcases ih h with h1 | h1 | ⟨b2, hb2, hc⟩
      · exact Or.inl h1
      · exact Or.inr (Or.inl h1)
      · exact Or.inr (Or.inr ⟨b2, List.mem_cons_of_mem _ hb2, hc⟩)

theorem flat2_getLast : ∀ rest : List (List Char), rest ≠ [] →
    (∀ b ∈ rest, goodAddr b) →
    ∀ c ∈ (rest.flatMap fun b => sep2f b ++ b).getLast?, emailChar c = true := by
  intro rest
  induction rest with
  | nil => intro h; exact absurd rfl h
  | cons b r2 ih =>
    intro _ hg c hc
    obtain ⟨hchars, h0, t0, hb, _⟩ := hg b (List.mem_cons_self _ _)
    have hbne : b ≠ [] := by rw [hb]; simp
    cases r2 with
    | nil =>
      simp only [List.flatMap_cons, List.flatMap_nil, List.append_nil] at hc
      rw [List.getLast?_append_of_ne_nil _ hbne] at hc
      obtain ⟨hne2, rfl⟩ := List.mem_getLast?_eq_getLast hc
      exact hchars _ (List.getLast_mem hne2)
    | cons b2 r3 =>
      simp only [List.flatMap_cons] at hc
      have hflatne :
          (sep2f b2 ++ b2) ++ (r3.flatMap fun x => sep2f x ++ x) ≠ [] := by
        unfold sep2f
        split <;> simp
      rw [List.getLast?_append_of_ne_nil _ hflatne] at hc
      have hc2 : c ∈ ((b2 :: r3).flatMap fun x => sep2f x ++ x).getLast? := by
        rw [List.flatMap_cons]
        exact hc
      exact ih (by simp)
        (fun x hx => hg x (List.mem_cons_of_mem _ hx)) c hc2



theorem normalize_joinCS (a : List Char) (rest : List (List Char))
    (hg : ∀ b ∈ a :: rest, goodAddr b) :
    normalizeEmailsText (joinCS (a :: rest)) =
      a ++ rest.flatMap fun b => sep2f b ++ b := by
  obtain ⟨hachars, h0, t0, ha, hloc⟩ := hg a (List.mem_cons_self _ _)
  have hrg : ∀ b ∈ rest, goodAddr b :=
    fun b hb => hg b (List.mem_cons_of_mem _ hb)
  have hane : a ≠ [] := by rw [ha]; simp
  have hjoin : joinCS (a :: rest) = a ++ joinTail rest := joinCS_cons a rest
  have hne : ¬joinCS (a :: rest) = [] := by
    rw [hjoin, ha]
    simp
  have hmapid : ∀ c ∈ joinCS (a :: rest), fullwidthMap c = c := by
    intro c hc
    rw [hjoin] at hc
    rcases List.mem_append.mp hc with h1 | h1
    · exact (emailChar_props (hachars c h1)).1
    · rcases mem_joinTail h1 with rfl | rfl | ⟨b, hb, hcb⟩
      · decide
      · decide
      · exact (emailChar_props ((hrg b hb).1 c hcb)).1
  have hmap : (joinCS (a :: rest)).map fullwidthMap = joinCS (a :: rest) := by
    rw [List.map_congr_left hmapid, List.map_id']
  have hanws : ∀ c ∈ a, isWs c = false :=
    fun c hc => (emailChar_props (hachars c hc)).2.1
  have hansep : ∀ c ∈ a, isSep2 c = false :=
    fun c hc => (emailChar_props (hachars c hc)).2.2.1
  rw [normalizeEmailsText, if_neg hne, hmap, hjoin]
  rw [show sub1 (a ++ joinTail rest) = sub1go false [] (a ++ joinTail rest)
    from rfl]
  rw [sub1go_append a false (joinTail rest) hanws (joinTail_head_not_ws rest)]
  rw [sub1_joinTail rest hrg]
  rw [show sub2 (a ++ rest.flatMap fun b => sep1 b ++ b) =
    sub2go false (a ++ rest.flatMap fun b => sep1 b ++ b) from rfl]
  rw [sub2go_pass a false _ hane hansep]
  rw [sub2_joinParts rest hrg]
  apply pyStrip_id_head_last
  · intro c hc
    rw [ha] at hc
    simp only [List.cons_append, List.head?_cons, Option.mem_def,
      Option.some.injEq] at hc
    subst hc
    exact (emailChar_props (hachars _ (by rw [ha]; exact List.mem_cons_self _ _))).2.2.2.1
  · intro c hc
    cases hr : rest with
    | nil =>
      rw [hr] at hc
      simp only [List.flatMap_nil, List.append_nil] at hc
      obtain ⟨hne2, rfl⟩ := List.mem_getLast?_eq_getLast hc
      exact (emailChar_props (hachars _ (List.getLast_mem hne2))).2.2.2.1
    | cons b2 r3 =>
      rw [hr] at hc
      have hflatne : (b2 :: r3).flatMap (fun b => sep2f b ++ b) ≠ [] := by
        simp only [List.flatMap_cons]
        unfold sep2f
        split <;> simp
      rw [List.getLast?_append_of_ne_nil _ hflatne] at hc
      have := flat2_getLast (b2 :: r3) (by simp) (by rw [← hr]; exact hrg) c hc
      exact (emailChar_props this).2.2.2.1



theorem splitComma_no_comma : ∀ x : List Char, ',' ∉ x → splitComma x = [x] := by
  intro x
  induction x with
  | nil => intro _; rfl
  | cons c cs ih =>
    intro h
    have hc : ¬c = ',' := fun hc => h (hc ▸ List.mem_cons_self _ _)
    rw [splitComma, if_neg hc, ih (fun hm => h (List.mem_cons_of_mem _ hm))]

theorem splitComma_append_comma : ∀ (x r : List Char), ',' ∉ x →
    splitComma (x ++ ',' :: r) = x :: splitComma r := by
  intro x
  induction x with
  | nil =>
    intro r _
    simp [splitComma]
  | cons c cs ih =>
    intro r h
    have hc : ¬c = ',' := fun hc => h (hc ▸ List.mem_cons_self _ _)
    rw [List.cons_append, splitComma, if_neg hc,
      ih r (fun hm => h (List.mem_cons_of_mem _ hm))]

/-- The chunk list produced by splitting the normalized re-join on commas:
each further address contributes itself, preceded by an empty chunk unless it
begins with a dot. -/
def chunksTail (r : List (List Char)) : List (List Char) :=
  r.flatMap fun b => if b.head? = some '.' then [b] else [[], b]

theorem no_comma_of_good {b : List Char} (hg : goodAddr b) : ',' ∉ b :=
  fun hm => (emailChar_props (hg.1 ',' hm)).2.2.2.2.1 rfl

theorem splitComma_normForm : ∀ (r : List (List Char)) (b : List Char),
    goodAddr b → (∀ x ∈ r, goodAddr x) →
    splitComma (b ++ r.flatMap fun x => sep2f x ++ x) = b :: chunksTail r := by
  intro r
  induction r with
  | nil =>
    intro b hb _
    simp only [List.flatMap_nil, List.append_nil, chunksTail]
    exact splitComma_no_comma b (no_comma_of_good hb)
  | cons b2 r2 ih =>
    intro b hb hg
    have hb2 := hg b2 (List.mem_cons_self _ _)
    have hr2 : ∀ x ∈ r2, goodAddr x := fun x hx => hg x (List.mem_cons_of_mem _ hx)
    simp only [List.flatMap_cons, List.append_assoc]
    by_cases hdot : b2.head? = some '.'
    · have hs : sep2f b2 = [','] := by simp [sep2f, hdot]
      rw [hs]
      simp only [List.singleton_append]
      rw [splitComma_append_comma b _ (no_comma_of_good hb)]
      rw [show b2 ++ r2.flatMap (fun x => sep2f x ++ x) =
        b2 ++ r2.flatMap fun x => sep2f x ++ x from rfl]
      rw [ih b2 hb2 hr2]
      simp [chunksTail, hdot]
    · have hs : sep2f b2 = [',', ','] := by simp [sep2f, hdot]
      rw [hs]
      simp only [List.cons_append, List.nil_append]
      rw [splitComma_append_comma b _ (no_comma_of_good hb)]
      rw [show splitComma (',' :: (b2 ++ r2.flatMap fun x => sep2f x ++ x)) =
        [] :: splitComma (b2 ++ r2.flatMap fun x => sep2f x ++ x) by
          rw [splitComma]; simp]
      rw [ih b2 hb2 hr2]
      simp [chunksTail, hdot]

theorem extractAddr_id {chunk : List Char} (h : '<' ∉ chunk) :
    extractAddr chunk = chunk := by
  have hdw : chunk.dropWhile (fun c => !(c = '<')) = [] := by
    rw [List.dropWhile_eq_nil_iff]
    intro c hc
    simpa using fun hcc : c = '<' => h (hcc ▸ hc)
  unfold extractAddr
  rw [hdw]



theorem matchEmail_ne_nil {e : List Char} (h : matchEmail e = true) : e ≠ [] := by
  obtain ⟨-, h0, t0, rfl, -⟩ := matchEmail_elim h
  simp

theorem chunksTail_map_pyStrip (rest : List (List Char))
    (hg : ∀ b ∈ rest, goodAddr b) :
    (chunksTail rest).map (pyStrip isWs) = chunksTail rest := by
  rw [List.map_congr_left, List.map_id']
  intro x hx
  unfold chunksTail at hx
  rw [List.mem_flatMap] at hx
  obtain ⟨b, hb, hxb⟩ := hx
  have hbg := hg b hb
  split at hxb
  · simp only [List.mem_singleton] at hxb
    subst hxb
    exact pyStrip_id_of_all fun c hc => (emailChar_props (hbg.1 c hc)).2.1
  · simp only [List.mem_cons, List.mem_singleton, List.not_mem_nil,
      or_false] at hxb
    rcases hxb with rfl | rfl
    · rfl
    · exact pyStrip_id_of_all fun c hc => (emailChar_props (hbg.1 c hc)).2.1

theorem chunksTail_map_extract (rest : List (List Char))
    (hg : ∀ b ∈ rest, goodAddr b) :
    (chunksTail rest).map extractAddr = chunksTail rest := by
  rw [List.map_congr_left, List.map_id']
  intro x hx
  unfold chunksTail at hx
  rw [List.mem_flatMap] at hx
  obtain ⟨b, hb, hxb⟩ := hx
  have hbg := hg b hb
  split at hxb
  · simp only [List.mem_singleton] at hxb
    subst hxb
    exact extractAddr_id fun hm => (emailChar_props (hbg.1 '<' hm)).2.2.2.2.2 rfl
  · simp only [List.mem_cons, List.mem_singleton, List.not_mem_nil,
      or_false] at hxb
    rcases hxb with rfl | rfl
    · rfl
    · exact extractAddr_id fun hm => (emailChar_props (hbg.1 '<' hm)).2.2.2.2.2 rfl

theorem chunksTail_filter_good (rest : List (List Char))
    (hmatch : ∀ e ∈ rest, matchEmail e = true) :
    (chunksTail rest).filter (fun a => !a.isEmpty && matchEmail a) = rest ∧
    (chunksTail rest).filter (fun a => !a.isEmpty && !matchEmail a) = [] := by
  induction rest with
  | nil => exact ⟨rfl, rfl⟩
  | cons b r2 ih =>
    have hmb := hmatch b (List.mem_cons_self _ _)
    have hbne : b.isEmpty = false := by
      simpa [List.isEmpty_iff] using matchEmail_ne_nil hmb
    obtain ⟨ih1, ih2⟩ := ih fun e he => hmatch e (List.mem_cons_of_mem _ he)
    rw [show chunksTail (b :: r2) =
      (if b.head? = some '.' then [b] else [[], b]) ++ chunksTail r2 by
        unfold chunksTail
        rw [List.flatMap_cons]]
    constructor
    · rw [List.filter_append]
      split
      · simp only [List.filter_cons, hbne, hmb, Bool.not_false, Bool.and_self,
          List.filter_nil]
        rw [show (chunksTail r2).filter (fun a => !a.isEmpty && matchEmail a) =
          r2 from ih1]
        rfl
      · simp only [List.filter_cons, hbne, hmb, List.isEmpty_nil,
          Bool.not_false, Bool.and_self, Bool.not_true, Bool.false_and,
          List.filter_nil]
        rw [show (chunksTail r2).filter (fun a => !a.isEmpty && matchEmail a) =
          r2 from ih1]
        rfl
    · rw [List.filter_append]
      split
      · simp only [List.filter_cons, hbne, hmb, Bool.not_false, Bool.not_true,
          Bool.and_false, List.filter_nil]
        rw [show (chunksTail r2).filter (fun a => !a.isEmpty && !matchEmail a) =
          [] from ih2]
        rfl
      · simp only [List.filter_cons, hbne, hmb, List.isEmpty_nil,
          Bool.not_true, Bool.and_false, Bool.false_and, List.filter_nil]
        rw [show (chunksTail r2).filter (fun a => !a.isEmpty && !matchEmail a) =
          [] from ih2]
        rfl

theorem dedupCI_id : ∀ (xs seen : List (List Char)),
    xs.Pairwise (fun a b => lowerList a ≠ lowerList b) →
    (∀ e ∈ xs, lowerList e ∉ seen) → dedupCI seen xs = xs := by
  intro xs
  induction xs with
  | nil => intro seen _ _; rfl
  | cons x rest ih =>
    intro seen hpw hseen
    rw [dedupCI, if_neg (hseen x (List.mem_cons_self _ _))]
    rcases List.pairwise_cons.mp hpw with ⟨hx, hrest⟩
    rw [ih _ hrest]
    intro e he
    simp only [List.mem_cons]
    push_neg
    constructor
    · exact fun hc => (hx e he) hc.symm
    · exact hseen e (List.mem_cons_of_mem _ he)

theorem parse_ok_members {s : List Char} {L : List (List Char)}
    (h : parseRecipients s = .ok L) : ∀ e ∈ L, matchEmail e = true := by
  by_cases hn : normalizeEmailsText s = []
  · simp [parseRecipients, hn] at h
    subst h
    simp
  · simp only [parseRecipients, if_neg hn, classify_eq] at h
    split at h
    · have hL := Except.ok.inj h
      subst hL
      intro e he
      have := mem_dedupCI _ _ _ he
      have := List.of_mem_filter this
      rw [Bool.and_eq_true] at this
      exact this.2
    · exact Except.noConfusion h



/-- C8. `parse_recipients` is idempotent on its own output: re-parsing the
comma-separated re-join of a successfully parsed list returns exactly the
same list, in the same order and casing. -/
theorem c8_parse_idempotent (s : List Char) (L : List (List Char))
    (h : parseRecipients s = .ok L) :
    parseRecipients (joinCS L) = .ok L := by
  cases L with
  | nil => rfl
  | cons a rest =>
    have hmatch : ∀ e ∈ a :: rest, matchEmail e = true := parse_ok_members h
    have hg : ∀ b ∈ a :: rest, goodAddr b := by
      intro b hb
      obtain ⟨h1, h2⟩ := matchEmail_elim (hmatch b hb)
      exact ⟨h1, h2⟩
    have hpw := parse_ok_pairwise h
    have hga := hg a (List.mem_cons_self _ _)
    have hgrest : ∀ b ∈ rest, goodAddr b :=
      fun b hb => hg b (List.mem_cons_of_mem _ hb)
    have hnorm := normalize_joinCS a rest hg
    have hsplit := splitComma_normForm rest a hga hgrest
    have hnne : ¬normalizeEmailsText (joinCS (a :: rest)) = [] := by
      rw [hnorm]
      obtain ⟨-, h0, t0, rfl, -⟩ := hga
      simp
    have hmapex : (a :: chunksTail rest).map extractAddr =
        a :: chunksTail rest := by
      rw [List.map_cons, chunksTail_map_extract rest hgrest,
        extractAddr_id
          (fun hm => (emailChar_props (hga.1 '<' hm)).2.2.2.2.2 rfl)]
    have hstripa : pyStrip isWs a = a :=
      pyStrip_id_of_all fun c hc => (emailChar_props (hga.1 c hc)).2.1
    have hmatcha : matchEmail a = true := hmatch a (List.mem_cons_self _ _)
    have haemp : a.isEmpty = false := by
      simpa [List.isEmpty_iff] using matchEmail_ne_nil hmatcha
    obtain ⟨hf1, hf2⟩ := chunksTail_filter_good rest
      (fun e he => hmatch e (List.mem_cons_of_mem _ he))
    have hclassify : classify ((a :: chunksTail rest).map extractAddr) =
        (a :: rest, []) := by
      rw [hmapex, classify_eq, List.map_cons,
        chunksTail_map_pyStrip rest hgrest, hstripa, List.filter_cons,
        List.filter_cons]
      simp only [haemp, hmatcha, Bool.not_false, Bool.and_self, Bool.not_true,
        Bool.and_false, hf1, hf2, if_true, if_false, Bool.false_eq_true]
    have hdedup : dedupCI [] (a :: rest) = a :: rest :=
      dedupCI_id _ [] hpw (fun e _ => List.not_mem_nil _)
    simp only [parseRecipients, hnorm, if_neg (hnorm ▸ hnne), hsplit,
      hclassify, if_pos rfl, hdedup, if_true]



/-- Concrete instantiation of `c8_parse_idempotent`: the input
`"b@c.com;  A@D.com, a@d.com"` parses to `[b@c.com, A@D.com]` (the cc-cased
duplicate dropped), and re-parsing the joined output returns it unchanged. -/
theorem c8_parse_idempotent_witness :
    parseRecipients (joinCS ["b@c.com".data, "A@D.com".data]) =
      .ok ["b@c.com".data, "A@D.com".data] :=
  c8_parse_idempotent ("b@c.com;  A@D.com, a@d.com".data)
    ["b@c.com".data, "A@D.com".data] (by decide)

end SplitMailer
